import Mathlib

/-!
Verification of the dependency-graph construction and ordering engine of the
gulp-order-bemdeps repository.  The repository contains several generations of
the same engine:

* `index.js` (first generation): a `Map`-based dependency tree plus a
  breadth-first output routine `bfsOutputTree`;
* `index.js` (second generation, `gulp-bem-css`): a recursive longest-path
  weight computation (`calcRecursiveNodeWeight` / `calcTreeNodesWeight`) with a
  sort-by-weight emission;
* `index.js` (third generation): a `TreeNode` graph (`lib/tree-node`) with a
  parent-aware breadth-first output routine (`lib/bfs-output-tree`);
* the `topological-sort` generation, whose `buildBasicDependencies` and the
  older `getNodeDepth` / `buildDepthGraph` weight orderer also appear in the
  sources.

The definitions below are shallow embeddings of those functions, translated
from the JavaScript sources.  Strings are Lean `String`s, JavaScript `Map`s and
`Set`s become insertion-ordered association lists and duplicate-free lists, and
functions that can throw return `Except`/option-style results.  Unbounded
recursion from the source is given explicit fuel; every theorem that depends on
the fuel being large enough proves that adequacy rather than assuming it.
-/

namespace GulpOrderBemDeps

/-- JavaScript truthiness of an optional string field: `undefined` (here
`none`) and the empty string are falsy, every other string is truthy. -/
def jsTruthy : Option String → Bool
  | none => false
  | some s => s ≠ ""

/-- The naming record produced by the BEM identifier parser
(`parse-bem-identifier`): the object fields read by this repository are
`block`, `mod`, `modVal`, `elem`, `elemMod` and `elemModVal`. -/
structure BemNaming where
  block : String
  mod : Option String
  modVal : Option String
  elem : Option String
  elemMod : Option String
  elemModVal : Option String
deriving DecidableEq, Repr

/-- `src/lib/bem-naming-to-classname.js`: serialize a naming record back into a
flat identifier, appending each truthy facet in order. -/
def bemNamingToClassname (b : BemNaming) : String :=
  let o := b.block
  let o := if jsTruthy b.mod then o ++ "_" ++ b.mod.getD "" else o
  let o := if jsTruthy b.modVal then o ++ "_" ++ b.modVal.getD "" else o
  let o := if jsTruthy b.elem then o ++ "__" ++ b.elem.getD "" else o
  let o := if jsTruthy b.elemMod then o ++ "_" ++ b.elemMod.getD "" else o
  let o := if jsTruthy b.elemModVal then o ++ "_" ++ b.elemModVal.getD "" else o
  o

/-- `isBlockBemNaming` from `index.js`: a record is block-only when every key of
`BEM_NAMING_PARSED_KEYS` except `block` is `undefined`.  The source list names
`elemVal`, a key the parser records never carry, so that conjunct is vacuous and
`elemModVal` is (faithfully) not inspected here. -/
def isBlockBemNaming (b : BemNaming) : Bool :=
  b.mod.isNone && b.modVal.isNone && b.elem.isNone && b.elemMod.isNone

/-- The `isBadNaming` validation used throughout `index.js`: some key of
`BEM_NAMING_PARSED_KEYS` is the empty string.  The checked keys are `block`,
`mod`, `modVal`, `elem`, `elemMod` and the phantom `elemVal`; `elemModVal` is
not on the list, so an empty sub-modifier value is (faithfully) not detected. -/
def isBadNaming (b : BemNaming) : Bool :=
  b.block == "" || b.mod == some "" || b.modVal == some "" ||
  b.elem == some "" || b.elemMod == some ""

/-- The facet-stripping step of `addRecursiveNodeDependencies` /
`buildBasicDependencies`: delete the most specific truthy facet, trying
`elemModVal`, `elemMod`, `elem`, `modVal`, `mod` in that order. -/
def stripBemNaming (b : BemNaming) : BemNaming :=
  if jsTruthy b.elemModVal then { b with elemModVal := none }
  else if jsTruthy b.elemMod then { b with elemMod := none }
  else if jsTruthy b.elem then { b with elem := none }
  else if jsTruthy b.modVal then { b with modVal := none }
  else if jsTruthy b.mod then { b with mod := none }
  else b

/-- Number of populated (non-`undefined`) facets of a naming record, the base
entity excluded. -/
def facetCount (b : BemNaming) : Nat :=
  (if b.mod.isSome then 1 else 0) + (if b.modVal.isSome then 1 else 0) +
  (if b.elem.isSome then 1 else 0) + (if b.elemMod.isSome then 1 else 0) +
  (if b.elemModVal.isSome then 1 else 0)

/-- A validly parsed naming record: no facet is present-but-empty and every
value facet is accompanied by its name facet (`modVal` needs `mod`, `elemMod`
needs `elem`, `elemModVal` needs `elemMod`). -/
def validNaming (b : BemNaming) : Bool :=
  b.block != "" && b.mod != some "" && b.modVal != some "" && b.elem != some "" &&
  b.elemMod != some "" && b.elemModVal != some "" &&
  (b.modVal.isNone || b.mod.isSome) && (b.elemMod.isNone || b.elem.isSome) &&
  (b.elemModVal.isNone || b.elemMod.isSome)

/-- The ancestor chain produced by `addRecursiveNodeDependencies` (and by
`buildBasicDependencies` of the topological-sort generation): starting from a
record, repeatedly strip one facet and re-serialize, collecting the dependency
identifier added at each step, until the record is block-only.  The source
recursion has no fuel; five facets bound the chain, so fuel 6 is exact for every
record on which the source terminates. -/
def ancestorChainAux : Nat → BemNaming → List String
  | 0, _ => []
  | fuel + 1, b =>
    if isBlockBemNaming b then []
    else
      let b' := stripBemNaming b
      bemNamingToClassname b' :: ancestorChainAux fuel b'

/-- Ancestor chain of a naming record (see `ancestorChainAux`). -/
def ancestorChain (b : BemNaming) : List String :=
  ancestorChainAux 6 b

/-- Iterated facet stripping. -/
def stripIter : Nat → BemNaming → BemNaming
  | 0, b => b
  | n + 1, b => stripIter n (stripBemNaming b)

/-- `dropSeparator sep cs` removes `sep` from the front of `cs` when it is a
prefix of `cs`. -/
def dropSeparator : List Char → List Char → Option (List Char)
  | [], cs => some cs
  | _, [] => none
  | s :: ss, c :: cs => if s = c then dropSeparator ss cs else none

/-- Modelled from the spec: split a character list on a separator, greedy from
the left (the behaviour of `String.prototype.split` for a non-empty
separator). -/
def splitSegments (sep : List Char) : Nat → List Char → List (List Char)
  | 0, cs => [cs]
  | fuel + 1, cs =>
    match dropSeparator sep cs with
    | some rest => [] :: splitSegments sep fuel rest
    | none =>
      match cs with
      | [] => [[]]
      | c :: cs' =>
        match splitSegments sep fuel cs' with
        | [] => [[c]]
        | seg :: rest => (c :: seg) :: rest

/-- Modelled from the spec: split a string on a separator, greedy from the
left, mirroring `String.prototype.split` which the Identifier Model's grammar
decomposition corresponds to. -/
def splitOnSep (s sep : String) : List String :=
  (splitSegments sep.data (s.data.length + 1) s.data).map String.mk

/-- Modelled from the spec: parse a flat identifier into a naming record
following the grammar of spec section 4.1 (see `splitSegments`).  Facets beyond
the grammar's arity are ignored; a dangling or doubled separator produces an
empty-string facet. -/
def parseBemIdentifier (stem : String) : BemNaming :=
  let parts := splitOnSep stem "__"
  let bsegs := splitOnSep (parts.headD "") "_"
  let base : BemNaming :=
    { block := bsegs.headD "", mod := bsegs[1]?, modVal := bsegs[2]?,
      elem := none, elemMod := none, elemModVal := none }
  match parts[1]? with
  | none => base
  | some sub =>
    let esegs := splitOnSep sub "_"
    { base with elem := some (esegs.headD ""), elemMod := esegs[1]?,
                elemModVal := esegs[2]? }

/-! ### Declaration normalizer (`flattenDepsJS`) -/

/-- A modifier value in a deps.js declaration: a boolean, a scalar, or an array
of scalars. -/
inductive DepsModVal where
  | bool (b : Bool)
  | scalar (s : String)
  | listVal (vals : List String)
deriving DecidableEq, Repr

/-- The `mods` field of a deps.js clause: either a flat array of modifier names
or an object mapping modifier names to values (in key order). -/
inductive DepsMods where
  | arr (names : List String)
  | obj (entries : List (String × DepsModVal))
deriving DecidableEq, Repr

/-- The leaf fields of a deps.js clause (everything except `tech`, `noDeps` and
`mustDeps`).  `none` models an absent field. -/
structure DepLeafFields where
  block : String
  mods : Option DepsMods
  elems : Option (List String)
  mod : Option String
  val : Option String
  elem : Option String
  elemMods : Option (List (String × DepsModVal))
deriving DecidableEq, Repr

/-- A deps.js clause: `flattenDepsJS` first consults `tech`/`noDeps`, then a
present `mustDeps` array, and otherwise treats the clause as a leaf. -/
inductive DepsDecl where
  | clause (tech noDeps : Bool) (mustDeps : Option (List DepsDecl)) (leaf : DepLeafFields)
deriving Repr

/-- JavaScript template-literal rendering of a modifier value, used when a
non-boolean `elemMods` value is appended to an identifier. -/
def modValText : DepsModVal → String
  | .bool b => if b then "true" else "false"
  | .scalar s => s
  | .listVal vs => String.intercalate "," vs

/-- The `elemMods` loop of `flattenDepsJS`: for each sub-modifier name, append
`_name` to the running identifier and emit it, then also append `_value` to the
running identifier when the value is not a boolean. -/
def elemModsSteps (stem0 : String) (entries : List (String × DepsModVal)) :
    String × List String :=
  entries.foldl
    (fun acc e =>
      let stem1 := acc.1 ++ "_" ++ e.1
      let out := acc.2 ++ [stem1]
      match e.2 with
      | .bool _ => (stem1, out)
      | v => (stem1 ++ "_" ++ modValText v, out))
    (stem0, [])

/-- The leaf branch of `flattenDepsJS`: a `mods` object or array wins, then an
`elems` array, then the successive `_mod`, `_val`, `__elem` concatenation with
the optional `elemMods` loop. -/
def leafOutput (l : DepLeafFields) : List String :=
  match l.mods with
  | some (.arr names) => names.map (fun n => l.block ++ "_" ++ n)
  | some (.obj entries) =>
    entries.flatMap (fun e =>
      match e.2 with
      | .listVal vs => vs.map (fun v => l.block ++ "_" ++ e.1 ++ "_" ++ v)
      | .bool _ => [l.block ++ "_" ++ e.1]
      | .scalar v => [l.block ++ "_" ++ e.1 ++ "_" ++ v, l.block ++ "_" ++ e.1])
  | none =>
    match l.elems with
    | some es => es.map (fun e => l.block ++ "__" ++ e)
    | none =>
      let stem := l.block
      let stem := if jsTruthy l.mod then stem ++ "_" ++ l.mod.getD "" else stem
      let stem := if jsTruthy l.val then stem ++ "_" ++ l.val.getD "" else stem
      if jsTruthy l.elem then
        let stem := stem ++ "__" ++ l.elem.getD ""
        match l.elemMods with
        | some entries =>
          let st := elemModsSteps stem entries
          st.2 ++ [st.1]
        | none => [stem]
      else [stem]

mutual
/-- `flattenDepsJS` restricted to one clause: skip `tech`/`noDeps` clauses,
recursively flatten a present `mustDeps` array, otherwise emit the leaf
output. -/
def flattenOneDep : DepsDecl → List String
  | .clause tech noDeps mustDeps leaf =>
    if tech || noDeps then []
    else
      match mustDeps with
      | some children => flattenDepsJS children
      | none => leafOutput leaf

/-- `flattenDepsJS` from `index.js`: flatten an array of deps.js clauses into
the concatenated list of dependency identifiers. -/
def flattenDepsJS : List DepsDecl → List String
  | [] => []
  | d :: rest => flattenOneDep d ++ flattenDepsJS rest
end

/-! ### Dependency trees

The first-generation `index.js` keeps the dependency tree as a
`Map<String, Set<String>>`; it is modelled as an insertion-ordered association
list from stems to duplicate-free dependency lists. -/

/-- Dependencies of a stem in a tree (`tree.get(stem)`, with `[]` for a missing
key). -/
def depsOf : List (String × List String) → String → List String
  | [], _ => []
  | p :: rest, s => if p.1 = s then p.2 else depsOf rest s

/-- The keys of a tree, in insertion order. -/
def treeKeys (g : List (String × List String)) : List String :=
  g.map Prod.fst

/-- `tree.has(stem)`. -/
def hasKey (g : List (String × List String)) (s : String) : Bool :=
  (treeKeys g).contains s

/-- Every stem mentioned by a tree: its keys and every dependency value.  Used
only to size fuel. -/
def univList (g : List (String × List String)) : List String :=
  treeKeys g ++ (g.map Prod.snd).flatten

/-- Transitive dependency reachability: `Reaches g s t` holds when `t` is a
direct or indirect dependency of `s`. -/
inductive Reaches (g : List (String × List String)) : String → String → Prop
  | edge {s d : String} : d ∈ depsOf g s → Reaches g s d
  | tail {s d t : String} : d ∈ depsOf g s → Reaches g d t → Reaches g s t

/-- Acyclicity witness: a rank function that strictly decreases along every
dependency edge recorded in the tree. -/
def RankCompat (g : List (String × List String)) (rank : String → Nat) : Prop :=
  ∀ p ∈ g, ∀ d ∈ p.2, rank d < rank p.1

/-! ### First-generation breadth-first output (`bfsOutputTree`, `index.js`)

This routine transposes the tree into a dependents map, seeds a queue with a
synthetic root node whose dependents are the zero-dependency stems, and then
emits each dequeued stem's file, enqueueing that stem's dependents and deleting
them from the transposed map so they are enqueued only once. -/

/-- One entry of the transposed-map builder: ensure a key exists. -/
def tdEnsure (td : List (String × List String)) (k : String) :
    List (String × List String) :=
  if hasKey td k then td else td ++ [(k, [])]

/-- Add `v` to the dependent set of `k` (a `Set.add`, so duplicates are
ignored). -/
def tdAdd (td : List (String × List String)) (k v : String) :
    List (String × List String) :=
  td.map (fun p => if p.1 == k && !p.2.contains v then (p.1, p.2 ++ [v]) else p)

/-- The transposition loop at the top of `bfsOutputTree`: for every tree entry,
register the stem, then add it to the dependent set of each of its
dependencies. -/
def buildTreeDependents (tree : List (String × List String)) :
    List (String × List String) :=
  tree.foldl
    (fun td p => p.2.foldl (fun td d => tdAdd (tdEnsure td d) d p.1) (tdEnsure td p.1))
    []

/-- The stems with an empty dependency set, in tree order: the children of the
synthetic root node. -/
def rootChildren (tree : List (String × List String)) : List String :=
  (tree.filter (fun p => p.2.isEmpty)).map Prod.fst

/-- A queue entry of the first-generation BFS: a stem (`none` is the synthetic
root symbol) together with the dependent set read when it was enqueued. -/
structure QueueNode where
  stem : Option String
  dependents : List String
deriving DecidableEq, Repr

/-- The dependent-enqueueing loop at the bottom of the first-generation BFS
body: for each dependent stem still present in the transposed map, read its
dependent set, enqueue it and delete it from the map. -/
def enqueueDependents (td : List (String × List String)) (dependents : List String) :
    List (String × List String) × List QueueNode :=
  dependents.foldl
    (fun (acc : List (String × List String) × List QueueNode) s =>
      if hasKey acc.1 s then
        (acc.1.filter (fun p => p.1 != s), acc.2 ++ [⟨some s, depsOf acc.1 s⟩])
      else acc)
    (td, [])

/-- The `while` loop of the first-generation `bfsOutputTree`.  State: the
not-yet-enqueued part of the transposed map, the remaining present stems
(`filesHash`), the queue and the output so far.  A dequeued stem is emitted
when its file is still present (and the file is then deleted), and its
dependents are enqueued.  Fuel only bounds the loop; the callers supply enough
for the loop to drain its queue. -/
def bfsMapAux : Nat → List (String × List String) → List String → List QueueNode →
    List String → List String
  | 0, _, _, _, out => out
  | fuel + 1, td, filesHash, queue, out =>
    match queue with
    | [] => out
    | node :: rest =>
      let step := enqueueDependents td node.dependents
      match node.stem with
      | none => bfsMapAux fuel step.1 filesHash (rest ++ step.2) out
      | some s =>
        if filesHash.contains s then
          bfsMapAux fuel step.1 (filesHash.erase s) (rest ++ step.2) (out ++ [s])
        else bfsMapAux fuel step.1 filesHash (rest ++ step.2) out

/-- The first-generation `bfsOutputTree`, returning the emitted stems in order.
Each transposed-map key is enqueued at most once (it is deleted on enqueue), so
`td.length + 2` iterations always drain the queue. -/
def bfsOutputTreeMap (tree : List (String × List String)) (present : List String) :
    List String :=
  let td := buildTreeDependents tree
  bfsMapAux (td.length + 2) td present [⟨none, rootChildren tree⟩] []

/-! ### Second-generation weight computation (`calcRecursiveNodeWeight`) -/

/-- Insert `x` into `l`, after every element `y` with `le y x`: the insertion
step of a stable insertion sort. -/
def insertLe {a : Type} (le : a → a → Bool) (x : a) : List a → List a
  | [] => [x]
  | y :: ys => if le y x then y :: insertLe le x ys else x :: y :: ys

/-- Stable sort by repeated insertion, used to model JavaScript's
`Array.prototype.sort`: for a total, transitive comparator every stable sort
produces this same list. -/
def sortLe {a : Type} (le : a → a → Bool) (l : List a) : List a :=
  l.foldl (fun acc x => insertLe le x acc) []

/-- `Math.max` over a list of naturals (the source only applies it to non-empty
lists). -/
def listMax : List Nat → Nat
  | [] => 0
  | x :: rest => Nat.max x (listMax rest)

instance {e a : Type} [DecidableEq e] [DecidableEq a] : DecidableEq (Except e a) := fun x y =>
  match x, y with
  | .error u, .error v =>
    if h : u = v then .isTrue (by rw [h]) else .isFalse (by intro hc; cases hc; exact h rfl)
  | .ok u, .ok v =>
    if h : u = v then .isTrue (by rw [h]) else .isFalse (by intro hc; cases hc; exact h rfl)
  | .error _, .ok _ => .isFalse (by intro hc; cases hc)
  | .ok _, .error _ => .isFalse (by intro hc; cases hc)

/-- Failure of the recursive weight computation: a detected circular dependency
carrying the recursion path, or fuel exhaustion (which adequate fuel rules
out — see the no-fuel lemmas). -/
inductive CalcErr where
  | cycle (path : List String)
  | fuel
deriving DecidableEq, Repr

/-- `calcRecursiveNodeWeight` from the second-generation `index.js`: increment
the accumulated weight, return it for unknown or dependency-free stems, and
otherwise recurse into every dependency, throwing a circular-dependency error
(carrying the current recursion path) when a dependency is already on the
path. -/
def calcRecursiveNodeWeight (tree : List (String × List String)) :
    Nat → String → Nat → List String → Except CalcErr Nat
  | 0, _, _, _ => .error .fuel
  | fuel + 1, stem, weight, depTree =>
    let weight := weight + 1
    if !(hasKey tree stem) then .ok weight
    else
      let deps := depsOf tree stem
      if deps.isEmpty then .ok weight
      else do
        let ws ← deps.foldlM
          (fun (acc : List Nat) d =>
            if depTree.contains d then .error (.cycle depTree)
            else do
              let w ← calcRecursiveNodeWeight tree fuel d weight (depTree ++ [d])
              pure (acc ++ [w]))
          []
        pure (listMax ws)

/-- Fuel sufficient for every recursion of the weight computation: the path
grows by one unseen universe member per level. -/
def weightFuel (tree : List (String × List String)) : Nat :=
  (univList tree).length + 2

/-- `calcTreeNodesWeight`: the per-stem weights of every tree key, in key
order; the first thrown error aborts the computation. -/
def calcTreeNodesWeight (tree : List (String × List String)) (fuel : Nat) :
    Except CalcErr (List (String × Nat)) :=
  tree.foldlM
    (fun acc p => do
      let w ← calcRecursiveNodeWeight tree fuel p.1 0 []
      pure (acc ++ [(p.1, w)]))
    []

/-- Weight lookup used by the second-generation sort comparator
(`treeNodesWeights.get(stem) || 0`). -/
def lookupWeight (ws : List (String × Nat)) (s : String) : Nat :=
  match ws with
  | [] => 0
  | p :: rest => if p.1 = s then p.2 else lookupWeight rest s

/-- The second-generation emission: sort the present files by their tree weight
(a stable sort, as JavaScript's `Array.prototype.sort` is).  On a thrown error
nothing is emitted. -/
def gulpBemCssOrder (tree : List (String × List String)) (files : List String) :
    List String :=
  match calcTreeNodesWeight tree (weightFuel tree) with
  | .error _ => []
  | .ok ws => sortLe (fun a b => decide (lookupWeight ws a ≤ lookupWeight ws b)) files

/-! ### Longest-path depth orderer (`getNodeDepth` / `buildDepthGraph`) -/

/-- Codepoint-wise lexicographic comparison of character lists, the model of
`String.prototype.localeCompare` used by the depth orderer's tie-break. -/
def charsLe : List Char → List Char → Bool
  | [], _ => true
  | _ :: _, [] => false
  | c :: cs, d :: ds =>
    if c.toNat < d.toNat then true
    else if d.toNat < c.toNat then false
    else charsLe cs ds

/-- String comparison via `charsLe`. -/
def strLe (a b : String) : Bool :=
  charsLe a.data b.data

/-- `getNodeDepth` from the depth orderer: `base` for unknown or
dependency-free stems, otherwise the maximum over all dependencies of their
depth with an incremented base.  The source recursion has no fuel; the theorems
prove the value is fuel-independent once fuel exceeds the stem's rank. -/
def getNodeDepth (rawDeps : List (String × List String)) :
    Nat → String → Nat → Nat
  | 0, _, base => base
  | fuel + 1, stem, base =>
    if !(hasKey rawDeps stem) then base
    else
      let deps := depsOf rawDeps stem
      if deps.isEmpty then base
      else listMax (deps.map (fun d => getNodeDepth rawDeps fuel d (base + 1)))

/-- The depth-orderer comparator: ascending depth, ties broken by the stem's
string ordering (`(a.depth - b.depth) || a.stem.localeCompare(b.stem)`). -/
def depthNodeLe (a b : Nat × String) : Bool :=
  decide (a.1 < b.1) || (a.1 == b.1 && strLe a.2 b.2)

/-- `buildDepthGraph`: compute every stem's depth, sort by the comparator and
return the stems.  The comparator is a total order with no distinct ties
(stems are unique map keys), so a stable merge sort models `Array.prototype.sort`
exactly. -/
def buildDepthGraph (rawDeps : List (String × List String)) (fuel : Nat) :
    List String :=
  (sortLe depthNodeLe
    (rawDeps.map (fun p => (getNodeDepth rawDeps fuel p.1 0, p.1)))).map Prod.snd

/-! ### Third-generation `TreeNode` graph (`lib/tree-node`)

Nodes are identified by their stem (`none` is the root node's `null` stem).
Each node keeps a set of parents (`_dependencies`) and a set of children
(`_dependents`); both sets over all nodes are modelled as a single list of
(node, parent) and (node, child) pairs. -/

/-- The `TreeNode` graph: created nodes, all `_dependencies` entries as
(node, parent) pairs, and all `_dependents` entries as (node, child) pairs. -/
structure TreeGraph where
  nodes : List (Option String)
  pars : List (Option String × Option String)
  childs : List (Option String × Option String)
deriving DecidableEq, Repr

/-- The graph state after `combineDeps` constructs the root node. -/
def TreeGraph.initial : TreeGraph :=
  ⟨[none], [], []⟩

/-- `Set.add`: append a pair unless it is already present. -/
def insertPair (l : List (Option String × Option String))
    (p : Option String × Option String) : List (Option String × Option String) :=
  if l.contains p then l else l ++ [p]

/-- `ensureExists` from `lib/tree-node`: create the node if missing and, for a
truthy stem, link it under the root node (in both directions). -/
def ensureExists (g : TreeGraph) (stem : Option String) : TreeGraph :=
  if g.nodes.contains stem then g
  else
    let g' : TreeGraph := ⟨g.nodes ++ [stem], g.pars, g.childs⟩
    if jsTruthy stem then
      ⟨g'.nodes, insertPair g'.pars (stem, none), insertPair g'.childs (none, stem)⟩
    else g'

/-- `addTreeNodeDependency` from the third-generation `index.js`: ensure the
stem's node exists and, for a truthy dependency, ensure the dependency node
exists and link the pair in both directions. -/
def addTreeNodeDependency (g : TreeGraph) (stem : String) (dependency : Option String) :
    TreeGraph :=
  let g := ensureExists g (some stem)
  if jsTruthy dependency then
    let g := ensureExists g dependency
    ⟨g.nodes, insertPair g.pars (some stem, dependency),
      insertPair g.childs (dependency, some stem)⟩
  else g

/-- One stem's step of the third-generation `combineDeps`: ensure the node,
fall back to the root for an empty dependency set, and link every dependency in
both directions. -/
def combineDepsStep (g : TreeGraph) (stem : String) (deps : List String) : TreeGraph :=
  let g := ensureExists g (some stem)
  let parents : List (Option String) := if deps.isEmpty then [none] else deps.map some
  parents.foldl
    (fun g d =>
      let g := ensureExists g d
      ⟨g.nodes, insertPair g.pars (some stem, d), insertPair g.childs (d, some stem)⟩)
    g

/-- Any sequence of the graph-building insertions: node creation, a dependency
edge, or one `combineDeps` stem. -/
inductive GraphOp where
  | ensure (stem : Option String)
  | dep (stem : String) (dependency : Option String)
  | combine (stem : String) (deps : List String)

/-- Apply a sequence of graph-building insertions to a graph. -/
def applyOps : TreeGraph → List GraphOp → TreeGraph
  | g, [] => g
  | g, .ensure s :: rest => applyOps (ensureExists g s) rest
  | g, .dep s d :: rest => applyOps (addTreeNodeDependency g s d) rest
  | g, .combine s ds :: rest => applyOps (combineDepsStep g s ds) rest

/-- The transpose invariant of the `TreeNode` graph: an edge is recorded in a
node's dependency set exactly when the mirrored edge is recorded in the other
node's dependent set. -/
def Transposed (g : TreeGraph) : Prop :=
  ∀ a b : Option String, (a, b) ∈ g.pars ↔ (b, a) ∈ g.childs

/-! ### Third-generation breadth-first output (`lib/bfs-output-tree`)

The graph walked by this routine is the `TreeNode` graph built by
`combineDeps`, the filter pass and `addBasicDependencies`: every stem node
carries the root among its parents (the `ensureExists` hack), the root's
children are all stem nodes, and the remaining parent/child edges are the
dependency relation and its transpose.  The walk is modelled directly over that
abstract shape, with the tree`s association list supplying the dependency
relation. -/

/-- Parent nodes of a graph node: the root has none; a stem node's parents are
the root plus its dependencies. -/
def nodeParents (g : List (String × List String)) : Option String → List (Option String)
  | none => []
  | some s => none :: (depsOf g s).map some

/-- Child nodes of a graph node: the root's children are all stem nodes; a stem
node's children are its dependents (the transpose of the dependency
relation). -/
def nodeChildren (g : List (String × List String)) : Option String → List (Option String)
  | none => (treeKeys g).map some
  | some d => ((g.filter (fun p => p.2.contains d)).map Prod.fst).map some

/-- The loop of the third-generation `bfsOutputTree`: pop a node; skip it when
already visited or when some parent is unvisited (a later visit of that parent
re-enqueues it); otherwise mark it visited and enqueue its children.  Returns
the visit order and the unprocessed queue left when fuel runs out. -/
def bfsNodeAux (g : List (String × List String)) :
    Nat → List (Option String) → List (Option String) →
    List (Option String) × List (Option String)
  | 0, visited, queue => (visited, queue)
  | fuel + 1, visited, queue =>
    match queue with
    | [] => (visited, [])
    | x :: rest =>
      if visited.contains x then bfsNodeAux g fuel visited rest
      else if (nodeParents g x).all (fun p => visited.contains p) then
        bfsNodeAux g fuel (visited ++ [x]) (rest ++ nodeChildren g x)
      else bfsNodeAux g fuel visited rest

/-- Fuel that always drains the queue (proved in the completeness lemma). -/
def bfsNodeFuel (g : List (String × List String)) : Nat :=
  (g.length + 2) * (g.length + 2)

/-- The third-generation `bfsOutputTree`: walk the graph from the root and emit
each visited stem that has a present file. -/
def bfsOutputTreeNode (g : List (String × List String)) (present : List String) :
    List String :=
  ((bfsNodeAux g (bfsNodeFuel g) [] [none]).1).filterMap
    (fun x =>
      match x with
      | some s => if present.contains s then some s else none
      | none => none)

/-! ### The first-generation pipeline (`gulpOrderBemDeps`) -/

/-- The `PluginError` raised on invalid BEM naming. -/
inductive PipeError where
  | invalidNaming (stem : String)
deriving DecidableEq, Repr

/-- Result of a pipeline run: the stems pushed downstream, in order, and the
error (if any) that aborted the run after those pushes. -/
structure PipeResult where
  emitted : List String
  error : Option PipeError
deriving DecidableEq, Repr

/-- State of the filter pass: stems already pushed, files kept for ordering,
and the dependency tree (which the pass extends with kept stems). -/
structure FilterState where
  emitted : List String
  kept : List String
  tree : List (String × List String)
deriving DecidableEq, Repr

/-- The filter pass of `gulpOrderBemDeps`: validate each input stem (throwing
on a bad one), push block-only stems whose block is not a tree node, and
register every other stem in the tree. -/
def filterFiles (parse : String → BemNaming) :
    FilterState → List String → FilterState × Option PipeError
  | st, [] => (st, none)
  | st, f :: rest =>
    let b := parse f
    if isBadNaming b then (st, some (.invalidNaming f))
    else if isBlockBemNaming b && !(hasKey st.tree b.block) then
      filterFiles parse { st with emitted := st.emitted ++ [f] } rest
    else
      let tree := if hasKey st.tree f then st.tree else st.tree ++ [(f, [])]
      filterFiles parse { st with kept := st.kept ++ [f], tree := tree } rest

/-- First-generation `addTreeNodeDependency` over the `Map` tree: ensure the
stem's entry exists and add a truthy dependency to its set. -/
def addTreeNodeDependencyMap (tree : List (String × List String)) (stem : String)
    (dependency : Option String) : List (String × List String) :=
  let tree := if hasKey tree stem then tree else tree ++ [(stem, [])]
  if jsTruthy dependency then
    let d := dependency.getD ""
    tree.map (fun p => if p.1 == stem && !p.2.contains d then (p.1, p.2 ++ [d]) else p)
  else tree

/-- `addRecursiveNodeDependencies` over the `Map` tree: for a block-only record
just ensure its node; otherwise strip one facet, add the edge from the record's
identifier to the stripped identifier, and recurse on the stripped record.  The
source has no fuel; fuel 6 covers every record that passed validation. -/
def addRecursiveNodeDependencies :
    Nat → List (String × List String) → BemNaming → List (String × List String)
  | 0, tree, _ => tree
  | fuel + 1, tree, b =>
    let stem := bemNamingToClassname b
    if isBlockBemNaming b then addTreeNodeDependencyMap tree b.block none
    else
      let b' := stripBemNaming b
      let tree := addTreeNodeDependencyMap tree stem (some (bemNamingToClassname b'))
      addRecursiveNodeDependencies fuel tree b'

/-- `addBasicDependencies`: iterate over the tree's keys in insertion order
(including keys appended during the iteration, as a JavaScript `Map` iterator
does), validating each stem's naming and adding its ancestor-chain edges. -/
def addBasicDependenciesAux (parse : String → BemNaming) :
    Nat → List (String × List String) → Nat →
    List (String × List String) × Option PipeError
  | 0, tree, _ => (tree, none)
  | fuel + 1, tree, i =>
    if h : i < tree.length then
      let stem := (tree.get ⟨i, h⟩).1
      let b := parse stem
      if isBadNaming b then (tree, some (.invalidNaming stem))
      else addBasicDependenciesAux parse fuel (addRecursiveNodeDependencies 6 tree b) (i + 1)
    else (tree, none)

/-- Entry point of `addBasicDependencies` with fuel covering the at most six
nodes each processed stem can append. -/
def addBasicDependencies (parse : String → BemNaming)
    (tree : List (String × List String)) :
    List (String × List String) × Option PipeError :=
  addBasicDependenciesAux parse (tree.length * 7 + 7) tree 0

/-- `addRootDependencies`: give every dependency mentioned by the tree its own
(empty) node. -/
def addRootDependencies (tree : List (String × List String)) :
    List (String × List String) :=
  tree.foldl
    (fun t p => p.2.foldl (fun t d => if hasKey t d then t else t ++ [(d, [])]) t)
    tree

/-- The first-generation `gulpOrderBemDeps` pipeline over already-parsed
declaration trees: filter the input files (pushing independent blocks at once),
add ancestor-chain and root dependencies, and emit the kept files through the
`Map`-based BFS.  A thrown naming error aborts the run, keeping whatever was
pushed before it. -/
def gulpOrderBemDeps (parse : String → BemNaming)
    (tree0 : List (String × List String)) (files : List String) : PipeResult :=
  let fr := filterFiles parse ⟨[], [], tree0⟩ files
  match fr.2 with
  | some e => ⟨fr.1.emitted, some e⟩
  | none =>
    let ab := addBasicDependencies parse fr.1.tree
    match ab.2 with
    | some e => ⟨fr.1.emitted, some e⟩
    | none =>
      let tree := addRootDependencies ab.1
      ⟨fr.1.emitted ++ bfsOutputTreeMap tree fr.1.kept, none⟩

/-! ### Derived definitions used by the theorems -/

/-- The claim's description of one `mods`-object entry: a list value emits one
identifier per element, a boolean emits the bare modifier (the claim fixes the
`true` case; the code treats `false` the same way), and a scalar emits both the
valued and the bare identifier. -/
def modsEntryOutput (base : String) (e : String × DepsModVal) : List String :=
  match e.2 with
  | .listVal vs => vs.map (fun v => base ++ "_" ++ e.1 ++ "_" ++ v)
  | .bool _ => [base ++ "_" ++ e.1]
  | .scalar v => [base ++ "_" ++ e.1 ++ "_" ++ v, base ++ "_" ++ e.1]

/-- Number of universe members not yet on the recursion path: the termination
measure of the weight computation. -/
def unseenLen (g : List (String × List String)) (seen : List String) : Nat :=
  ((univList g).filter (fun u => !(seen.contains u))).length

/-- A node's longest-path depth (`getNodeDepth` at accumulated base 0). -/
def depthOf (g : List (String × List String)) (fuel : Nat) (s : String) : Nat :=
  getNodeDepth g fuel s 0

/-- The visit order of the third-generation BFS over a graph. -/
def bfsVisitOrder (g : List (String × List String)) : List (Option String) :=
  (bfsNodeAux g (bfsNodeFuel g) [] [none]).1

/-- The filter-pass predicate of C10: an input file that parses as block-only
and whose block is not a node of the declaration tree. -/
def independentFile (parse : String → BemNaming) (tree0 : List (String × List String))
    (f : String) : Bool :=
  isBlockBemNaming (parse f) && !(hasKey tree0 (parse f).block)

/-- All nodes of the TreeNode graph: the root and one node per tree key. -/
def nodesU (g : List (String × List String)) : List (Option String) :=
  none :: (treeKeys g).map some

/-- A visit order in which every node's parents appear strictly earlier. -/
def ParentsBefore (g : List (String × List String)) (l : List (Option String)) : Prop :=
  ∀ i : Nat, ∀ h : i < l.length, ∀ p ∈ nodeParents g (l.get ⟨i, h⟩), p ∈ l.take i

/-- Position of the first occurrence of an element in a list. -/
def posOf {A : Type} [DecidableEq A] (x : A) : List A → Nat
  | [] => 0
  | a :: l => if a = x then 0 else posOf x l + 1

/-- The emission filter of the third-generation BFS: keep a node's stem when
the node is non-root and its stem is a present file. -/
def keepPresent (present : List String) : Option String → Option String
  | some s => if present.contains s then some s else none
  | none => none

/-! ## Theorems

General helper lemmas come first, then the claim theorems C1 to C10 with their
witnesses and counterexamples. -/

theorem contains_iff_mem {a : Type} [BEq a] [LawfulBEq a] (l : List a) (x : a) :
    l.contains x = true ↔ x ∈ l :=
  List.elem_iff

theorem mem_insertLe {a : Type} (le : a → a → Bool) (x : a) (l : List a) (z : a) :
    z ∈ insertLe le x l ↔ z = x ∨ z ∈ l := by
  induction l with
  | nil => simp [insertLe]
  | cons y ys ih =>
    by_cases h : le y x = true
    · rw [insertLe, if_pos h]
      simp only [List.mem_cons, ih]
      try tauto
    · rw [insertLe, if_neg h]
      simp only [List.mem_cons]
      try tauto

theorem insertLe_perm {a : Type} (le : a → a → Bool) (x : a) (l : List a) :
    (insertLe le x l).Perm (x :: l) := by
  induction l with
  | nil => simp [insertLe]
  | cons y ys ih =>
    by_cases h : le y x = true
    · simpa [insertLe, h] using (ih.cons y).trans (List.Perm.swap x y ys)
    · simp [insertLe, h]

theorem sortLe_aux_perm {a : Type} (le : a → a → Bool) (l acc : List a) :
    (l.foldl (fun acc x => insertLe le x acc) acc).Perm (acc ++ l) := by
  induction l generalizing acc with
  | nil => simp
  | cons x xs ih =>
    refine (ih (insertLe le x acc)).trans ?_
    refine ((insertLe_perm le x acc).append_right xs).trans ?_
    exact List.perm_middle.symm

theorem sortLe_perm {a : Type} (le : a → a → Bool) (l : List a) :
    (sortLe le l).Perm l := by
  simpa [sortLe] using sortLe_aux_perm le l []

theorem insertLe_pairwise {a : Type} (le : a → a → Bool)
    (htot : ∀ u v, le u v = true ∨ le v u = true)
    (htrans : ∀ u v w, le u v = true → le v w = true → le u w = true)
    (x : a) (l : List a) (h : l.Pairwise (fun u v => le u v = true)) :
    (insertLe le x l).Pairwise (fun u v => le u v = true) := by
  induction l with
  | nil => simp [insertLe]
  | cons y ys ih =>
    cases h with
    | cons hy hys =>
      by_cases hle : le y x = true
      · rw [insertLe, if_pos hle]
        refine List.Pairwise.cons ?_ (ih hys)
        intro z hz
        rcases (mem_insertLe le x ys z).mp hz with rfl | hz
        · exact hle
        · exact hy z hz
      · rw [insertLe, if_neg hle]
        have hxy : le x y = true := (htot x y).resolve_right (by simpa using hle)
        refine List.Pairwise.cons ?_ (List.Pairwise.cons hy hys)
        intro z hz
        rcases List.mem_cons.mp hz with rfl | hz
        · exact hxy
        · exact htrans x y z hxy (hy z hz)

theorem sortLe_aux_pairwise {a : Type} (le : a → a → Bool)
    (htot : ∀ u v, le u v = true ∨ le v u = true)
    (htrans : ∀ u v w, le u v = true → le v w = true → le u w = true)
    (l : List a) : ∀ acc : List a, acc.Pairwise (fun u v => le u v = true) →
    (l.foldl (fun acc x => insertLe le x acc) acc).Pairwise (fun u v => le u v = true) := by
  induction l with
  | nil => intro acc hacc; simpa using hacc
  | cons x xs ih =>
    intro acc hacc
    exact ih _ (insertLe_pairwise le htot htrans x acc hacc)

theorem sortLe_pairwise {a : Type} (le : a → a → Bool)
    (htot : ∀ u v, le u v = true ∨ le v u = true)
    (htrans : ∀ u v w, le u v = true → le v w = true → le u w = true)
    (l : List a) : (sortLe le l).Pairwise (fun u v => le u v = true) :=
  sortLe_aux_pairwise le htot htrans l [] (by simp)

theorem listMax_le_iff (l : List Nat) (n : Nat) :
    listMax l ≤ n ↔ ∀ x ∈ l, x ≤ n := by
  induction l with
  | nil => simp [listMax]
  | cons x xs ih => simp [listMax, Nat.max_le, ih]

theorem le_listMax_of_mem {l : List Nat} {x : Nat} (h : x ∈ l) : x ≤ listMax l := by
  induction l with
  | nil => cases h
  | cons y ys ih =>
    rcases List.mem_cons.mp h with rfl | hmem
    · simp [listMax, Nat.le_max_left]
    · exact le_trans (ih hmem) (by simp [listMax, Nat.le_max_right])

theorem listMax_map_add {A : Type} (c : Nat) (f : A → Nat) (l : List A) (hne : l ≠ []) :
    listMax (l.map (fun x => c + f x)) = c + listMax (l.map f) := by
  induction l with
  | nil => cases hne rfl
  | cons x xs ih =>
    rcases xs with _ | ⟨y, ys⟩
    · simp [listMax]
    · have hih := ih (by simp)
      simp only [List.map_cons, listMax] at hih ⊢
      rw [hih]
      exact Nat.add_max_add_left c (f x) _

/-! ### C4 and C9: the `mods` branch of the declaration normalizer -/

/-- C4: for a leaf clause whose `mods` field is a name-to-value object, the
normalizer emits, per entry in order: both `base_name_value` and `base_name`
for a scalar value, one `base_name_value` per element for a list value, and
only `base_name` for boolean `true`.  In particular both identifiers of a
scalar entry are emitted. -/
theorem c4_mods_object_emission (l : DepLeafFields) (entries : List (String × DepsModVal))
    (h : l.mods = some (.obj entries)) :
    flattenOneDep (.clause false false none l) = entries.flatMap (modsEntryOutput l.block)
    ∧ ∀ name v, (name, DepsModVal.scalar v) ∈ entries →
        (l.block ++ "_" ++ name ++ "_" ++ v) ∈ flattenOneDep (.clause false false none l)
        ∧ (l.block ++ "_" ++ name) ∈ flattenOneDep (.clause false false none l) := by
  have heq : flattenOneDep (.clause false false none l)
      = entries.flatMap (modsEntryOutput l.block) := by
    rcases l with ⟨blk, mods, elems, mo, va, el, em⟩
    simp only at h
    subst h
    simp only [flattenOneDep, leafOutput, Bool.or_self, Bool.false_eq_true, if_false]
    induction entries with
    | nil => rfl
    | cons e es ih =>
      rcases e with ⟨name, v⟩
      cases v <;> simpa [modsEntryOutput] using ih
  refine ⟨heq, ?_⟩
  intro name v hmem
  rw [heq]
  constructor
  · exact List.mem_flatMap.mpr ⟨(name, .scalar v), hmem, by simp [modsEntryOutput]⟩
  · exact List.mem_flatMap.mpr ⟨(name, .scalar v), hmem, by simp [modsEntryOutput]⟩

/-- C4 witness: a concrete clause with a scalar, a list and a boolean entry. -/
theorem c4_mods_object_emission_witness :
    flattenOneDep (.clause false false none
        ⟨"b", some (.obj [("m", .scalar "v"), ("n", .listVal ["p", "q"]), ("t", .bool true)]),
          none, none, none, none, none⟩)
      = ["b_m_v", "b_m", "b_n_p", "b_n_q", "b_t"]
    ∧ ("b_m_v" ∈ flattenOneDep (.clause false false none
        ⟨"b", some (.obj [("m", .scalar "v"), ("n", .listVal ["p", "q"]), ("t", .bool true)]),
          none, none, none, none, none⟩)) := by
  have h := c4_mods_object_emission
    ⟨"b", some (.obj [("m", .scalar "v"), ("n", .listVal ["p", "q"]), ("t", .bool true)]),
      none, none, none, none, none⟩
    [("m", .scalar "v"), ("n", .listVal ["p", "q"]), ("t", .bool true)] rfl
  refine ⟨by rw [h.1]; decide, (h.2 "m" "v" (by decide)).1⟩

/-- C9: when the `mods` field of a leaf clause is an object (an array
included), the clause's contribution is a function of `block` and `mods` alone:
any `elems`, `mod`, `val`, `elem` or `elemMods` fields on the same clause are
ignored. -/
theorem c9_mods_overrides_other_fields (b : String) (m : DepsMods)
    (elems1 elems2 : Option (List String)) (mod1 mod2 val1 val2 elem1 elem2 : Option String)
    (em1 em2 : Option (List (String × DepsModVal))) :
    flattenOneDep (.clause false false none ⟨b, some m, elems1, mod1, val1, elem1, em1⟩)
      = flattenOneDep (.clause false false none ⟨b, some m, elems2, mod2, val2, elem2, em2⟩) := by
  cases m <;> rfl

/-! ### C5: the ancestor chain -/

theorem jsTruthy_some (s : String) : jsTruthy (some s) = decide (s ≠ "") := rfl

theorem jsTruthy_none : jsTruthy none = false := rfl

theorem facetCount_le_five (b : BemNaming) : facetCount b ≤ 5 := by
  rw [facetCount]
  split_ifs <;> omega

theorem strip_block_eq (b : BemNaming) : (stripBemNaming b).block = b.block := by
  rw [stripBemNaming]
  split_ifs <;> rfl

theorem valid_block_iff (b : BemNaming) (hv : validNaming b = true) :
    isBlockBemNaming b = true ↔ facetCount b = 0 := by
  rcases b with ⟨bl, m, mv, e, em, emv⟩
  cases m <;> cases mv <;> cases e <;> cases em <;> cases emv <;>
    simp_all [validNaming, isBlockBemNaming, facetCount]

theorem valid_strip (b : BemNaming) (hv : validNaming b = true)
    (hnb : isBlockBemNaming b = false) :
    validNaming (stripBemNaming b) = true
    ∧ facetCount (stripBemNaming b) + 1 = facetCount b := by
  rcases b with ⟨bl, m, mv, e, em, emv⟩
  cases m <;> cases mv <;> cases e <;> cases em <;> cases emv <;>
    simp_all [validNaming, isBlockBemNaming, facetCount, stripBemNaming, jsTruthy]

theorem classname_of_entity_only (b : BemNaming) (h : facetCount b = 0) :
    bemNamingToClassname b = b.block := by
  rcases b with ⟨bl, m, mv, e, em, emv⟩
  cases m <;> cases mv <;> cases e <;> cases em <;> cases emv <;>
    simp_all [facetCount, bemNamingToClassname, jsTruthy]

theorem stripIter_chain (n : Nat) (b : BemNaming) :
    stripIter (n + 1) b = stripIter n (stripBemNaming b) := rfl

theorem stripIter_facets (b : BemNaming) (hv : validNaming b = true) :
    ∀ i, i ≤ facetCount b →
      validNaming (stripIter i b) = true
      ∧ facetCount (stripIter i b) + i = facetCount b
      ∧ (stripIter i b).block = b.block := by
  intro i
  induction i generalizing b with
  | zero => intro _; exact ⟨hv, rfl, rfl⟩
  | succ k ih =>
    intro hk
    have hnb : isBlockBemNaming b = false := by
      rcases hb : isBlockBemNaming b with _ | _
      · rfl
      · have := (valid_block_iff b hv).mp hb
        omega
    obtain ⟨hv', hc'⟩ := valid_strip b hv hnb
    have hk' : k ≤ facetCount (stripBemNaming b) := by omega
    obtain ⟨h1, h2, h3⟩ := ih (stripBemNaming b) hv' hk'
    refine ⟨by simpa [stripIter_chain] using h1, ?_, ?_⟩
    · rw [stripIter_chain]
      omega
    · rw [stripIter_chain, h3, strip_block_eq]

theorem chainAux_spec (n : Nat) :
    ∀ b : BemNaming, validNaming b = true → facetCount b = n →
    ∀ fuel, n ≤ fuel →
      ancestorChainAux fuel b
        = (List.range n).map (fun i => bemNamingToClassname (stripIter (i + 1) b)) := by
  induction n with
  | zero =>
    intro b hv hc fuel _
    have hb : isBlockBemNaming b = true := (valid_block_iff b hv).mpr hc
    cases fuel with
    | zero => simp [ancestorChainAux]
    | succ f => simp [ancestorChainAux, hb]
  | succ n ih =>
    intro b hv hc fuel hfuel
    cases fuel with
    | zero => omega
    | succ f =>
      have hnb : isBlockBemNaming b = false := by
        rcases hb : isBlockBemNaming b with _ | _
        · rfl
        · have := (valid_block_iff b hv).mp hb
          omega
      obtain ⟨hv', hc'⟩ := valid_strip b hv hnb
      have hrec := ih (stripBemNaming b) hv' (by omega) f (by omega)
      rw [ancestorChainAux, if_neg (by simp [hnb])]
      show bemNamingToClassname (stripBemNaming b) :: ancestorChainAux f (stripBemNaming b) = _
      rw [hrec, List.range_succ_eq_map]
      simp only [List.map_cons, List.map_map]
      rfl

/-- C5: for a validly parsed, non-entity-only naming record, the ancestor chain
strips exactly one populated facet per step (the facet count decreases by one at
each iterate), the chain element at position `i` is the re-serialization of the
record after `i + 1` strips (the strip itself trying sub-modifier-value,
sub-modifier-name, sub-entity, modifier-value, modifier-name in that order), and
the chain ends with the entity-only base identifier. -/
theorem c5_ancestor_chain (b : BemNaming) (hv : validNaming b = true)
    (hnb : isBlockBemNaming b = false) :
    (ancestorChain b).length = facetCount b
    ∧ (ancestorChain b).getLast? = some b.block
    ∧ (∀ i, i < facetCount b →
        (ancestorChain b)[i]? = some (bemNamingToClassname (stripIter (i + 1) b)))
    ∧ (∀ i, i ≤ facetCount b → facetCount (stripIter i b) + i = facetCount b) := by
  have hchain := chainAux_spec (facetCount b) b hv rfl 6
    (le_trans (facetCount_le_five b) (by omega))
  have hlen : (ancestorChain b).length = facetCount b := by
    rw [ancestorChain, hchain]
    simp
  have hget : ∀ i, i < facetCount b →
      (ancestorChain b)[i]? = some (bemNamingToClassname (stripIter (i + 1) b)) := by
    intro i hi
    rw [ancestorChain, hchain]
    rw [List.getElem?_map, List.getElem?_range hi]
    rfl
  have hfc := stripIter_facets b hv
  refine ⟨hlen, ?_, hget, fun i hi => (hfc i hi).2.1⟩
  have hpos : 0 < facetCount b := by
    rcases Nat.eq_zero_or_pos (facetCount b) with h0 | h
    · rw [(valid_block_iff b hv).mpr h0] at hnb
      cases hnb
    · exact h
  rw [List.getLast?_eq_getElem?, hlen]
  have hlast := hget (facetCount b - 1) (by omega)
  rw [hlast]
  obtain ⟨hv', hc', hb'⟩ := hfc (facetCount b) (le_refl _)
  have : facetCount b - 1 + 1 = facetCount b := by omega
  rw [this, classname_of_entity_only (stripIter (facetCount b) b) (by omega), hb']

/-- C5 witness: the fully populated record `a_m_v__e_x_y`. -/
theorem c5_ancestor_chain_witness :
    validNaming ⟨"a", some "m", some "v", some "e", some "x", some "y"⟩ = true
    ∧ isBlockBemNaming ⟨"a", some "m", some "v", some "e", some "x", some "y"⟩ = false
    ∧ (ancestorChain ⟨"a", some "m", some "v", some "e", some "x", some "y"⟩).length
        = facetCount ⟨"a", some "m", some "v", some "e", some "x", some "y"⟩
    ∧ (ancestorChain ⟨"a", some "m", some "v", some "e", some "x", some "y"⟩).getLast?
        = some "a" := by
  have h := c5_ancestor_chain ⟨"a", some "m", some "v", some "e", some "x", some "y"⟩
    (by decide) (by decide)
  exact ⟨by decide, by decide, h.1, h.2.1⟩

/-! ### C8: the transpose invariant of the TreeNode graph -/

theorem mem_insertPair (l : List (Option String × Option String))
    (p q : Option String × Option String) :
    q ∈ insertPair l p ↔ q ∈ l ∨ q = p := by
  rw [insertPair]
  by_cases h : l.contains p = true
  · rw [if_pos h]
    have hp : p ∈ l := (contains_iff_mem l p).mp h
    constructor
    · exact Or.inl
    · rintro (hq | rfl)
      · exact hq
      · exact hp
  · rw [if_neg h]
    simp

theorem transposed_pair_insert (g : TreeGraph) (x y : Option String)
    (nodes' : List (Option String)) (h : Transposed g) :
    Transposed ⟨nodes', insertPair g.pars (x, y), insertPair g.childs (y, x)⟩ := by
  intro a b
  simp only [mem_insertPair]
  constructor
  · rintro (hab | hab)
    · exact Or.inl ((h a b).mp hab)
    · right
      rw [Prod.mk.injEq] at hab ⊢
      exact ⟨hab.2, hab.1⟩
  · rintro (hba | hba)
    · exact Or.inl ((h a b).mpr hba)
    · right
      rw [Prod.mk.injEq] at hba ⊢
      exact ⟨hba.2, hba.1⟩

theorem transposed_ensureExists (g : TreeGraph) (s : Option String) (h : Transposed g) :
    Transposed (ensureExists g s) := by
  rw [ensureExists]
  by_cases hc : g.nodes.contains s = true
  · rw [if_pos hc]; exact h
  · rw [if_neg hc]
    by_cases ht : jsTruthy s = true
    · rw [if_pos ht]
      exact transposed_pair_insert g s none _ h
    · rw [if_neg ht]
      exact h

theorem transposed_addTreeNodeDependency (g : TreeGraph) (stem : String)
    (dependency : Option String) (h : Transposed g) :
    Transposed (addTreeNodeDependency g stem dependency) := by
  rw [addTreeNodeDependency]
  have h1 := transposed_ensureExists g (some stem) h
  by_cases ht : jsTruthy dependency = true
  · rw [if_pos ht]
    exact transposed_pair_insert _ (some stem) dependency _
      (transposed_ensureExists _ dependency h1)
  · rw [if_neg ht]
    exact h1

theorem transposed_combineDepsStep (g : TreeGraph) (stem : String)
    (deps : List String) (h : Transposed g) :
    Transposed (combineDepsStep g stem deps) := by
  have hfold : ∀ (ps : List (Option String)) (g0 : TreeGraph), Transposed g0 →
      Transposed (ps.foldl (fun g d =>
        let g' := ensureExists g d
        TreeGraph.mk g'.nodes (insertPair g'.pars (some stem, d))
          (insertPair g'.childs (d, some stem))) g0) := by
    intro ps
    induction ps with
    | nil => intro g0 hg; exact hg
    | cons d ds ih =>
      intro g0 hg
      exact ih _ (transposed_pair_insert _ (some stem) d _ (transposed_ensureExists g0 d hg))
  exact hfold _ _ (transposed_ensureExists g (some stem) h)


/-- C8: starting from the graph `combineDeps` creates (a lone root node), every
sequence of graph-building insertions — node creation via `ensureExists`, a
dependency edge via `addTreeNodeDependency`, or a `combineDeps` stem with its
dependency set — keeps the dependent sets the exact transpose of the dependency
sets: an edge is recorded parent-wise if and only if it is recorded
child-wise. -/
theorem c8_transpose_invariant (ops : List GraphOp) :
    Transposed (applyOps TreeGraph.initial ops) := by
  have hinit : Transposed TreeGraph.initial := by
    intro a b
    simp [TreeGraph.initial]
  suffices hstep : ∀ (l : List GraphOp) (g : TreeGraph), Transposed g →
      Transposed (applyOps g l) from hstep ops TreeGraph.initial hinit
  intro l
  induction l with
  | nil => intro g hg; exact hg
  | cons op rest ih =>
    intro g hg
    cases op with
    | ensure s => exact ih _ (transposed_ensureExists g s hg)
    | dep s d => exact ih _ (transposed_addTreeNodeDependency g s d hg)
    | combine s ds => exact ih _ (transposed_combineDepsStep g s ds hg)

/-! ### C1: the first-generation BFS violates dependency order -/

/-- C1 (code bug, failing input): on the repository's own `deps-multiple`
fixture — `block` depends on `mixins` and `variables`, `mixins` depends on
`variables`, all three present — the first-generation `bfsOutputTree` emits
`block` before its dependency `mixins`, because a node is enqueued as soon as
its first dependency is processed rather than after all of them.  The full
first-generation pipeline reproduces the same wrong order, while the repository
test for this fixture expects `variables, mixins, block`. -/
theorem c1_bfs_breaks_dependency_order :
    "mixins" ∈ depsOf [("block", ["mixins", "variables"]),
        ("mixins", ["variables"]), ("variables", [])] "block"
    ∧ bfsOutputTreeMap [("block", ["mixins", "variables"]),
        ("mixins", ["variables"]), ("variables", [])] ["block", "mixins", "variables"]
        = ["variables", "block", "mixins"]
    ∧ gulpOrderBemDeps parseBemIdentifier
        [("block", ["mixins", "variables"]), ("mixins", ["variables"])]
        ["block", "mixins", "variables"]
        = ⟨["variables", "block", "mixins"], none⟩ := by
  refine ⟨by decide, by decide, by decide⟩

/-! ### C3: invalid input naming aborts the run before ordered output -/

theorem filterFiles_emitted_spec (parse : String → BemNaming) :
    ∀ (files : List String) (st : FilterState),
      ∀ s ∈ (filterFiles parse st files).1.emitted,
        s ∈ st.emitted ∨ (s ∈ files ∧ isBlockBemNaming (parse s) = true) := by
  intro files
  induction files with
  | nil => intro st s hs; exact Or.inl hs
  | cons f rest ih =>
    intro st s hs
    rw [filterFiles] at hs
    by_cases hbad : isBadNaming (parse f) = true
    · rw [if_pos hbad] at hs
      exact Or.inl hs
    · rw [if_neg hbad] at hs
      by_cases hblk : (isBlockBemNaming (parse f) && !(hasKey st.tree (parse f).block)) = true
      · rw [if_pos hblk] at hs
        rcases ih _ s hs with hmem | ⟨hf, hb⟩
        · rcases List.mem_append.mp hmem with hmem | hmem
          · exact Or.inl hmem
          · have hsf : s = f := by simpa using hmem
            have hb1 : isBlockBemNaming (parse s) = true := by
              have hc := hblk
              simp only [Bool.and_eq_true] at hc
              rw [hsf]
              exact hc.1
            refine Or.inr ⟨?_, hb1⟩
            rw [hsf]
            exact List.mem_cons_self _ _
        · exact Or.inr ⟨List.mem_cons_of_mem _ hf, hb⟩
      · rw [if_neg hblk] at hs
        rcases ih _ s hs with hmem | ⟨hf, hb⟩
        · exact Or.inl hmem
        · exact Or.inr ⟨List.mem_cons_of_mem _ hf, hb⟩

theorem filterFiles_err_of_bad (parse : String → BemNaming) :
    ∀ (files : List String) (st : FilterState),
      (∃ f ∈ files, isBadNaming (parse f) = true) →
      (filterFiles parse st files).2.isSome = true := by
  intro files
  induction files with
  | nil =>
    intro st h
    rcases h with ⟨f, hf, _⟩
    cases hf
  | cons f rest ih =>
    intro st h
    rw [filterFiles]
    by_cases hbad : isBadNaming (parse f) = true
    · rw [if_pos hbad]; rfl
    · rw [if_neg hbad]
      have hrest : ∃ g ∈ rest, isBadNaming (parse g) = true := by
        rcases h with ⟨g, hg, hgb⟩
        rcases List.mem_cons.mp hg with rfl | hg
        · exact absurd hgb hbad
        · exact ⟨g, hg, hgb⟩
      by_cases hblk : (isBlockBemNaming (parse f) && !(hasKey st.tree (parse f).block)) = true
      · rw [if_pos hblk]; exact ih _ hrest
      · rw [if_neg hblk]; exact ih _ hrest

/-- C3 (amended): whenever the parse of some input file stem has one of the
facets that the validation list actually checks (`block`, `mod`, `modVal`,
`elem`, `elemMod`) equal to the empty string, the run fails with an
invalid-naming error, and nothing beyond the filter pass's immediately-pushed
independent block files is ever emitted — in particular no ordering (BFS)
output is produced. -/
theorem c3_invalid_input_aborts_run (parse : String → BemNaming)
    (tree0 : List (String × List String)) (files : List String)
    (hbad : ∃ f ∈ files, isBadNaming (parse f) = true) :
    (gulpOrderBemDeps parse tree0 files).error.isSome = true
    ∧ ∀ s ∈ (gulpOrderBemDeps parse tree0 files).emitted,
        isBlockBemNaming (parse s) = true := by
  have herr := filterFiles_err_of_bad parse files ⟨[], [], tree0⟩ hbad
  have hem := filterFiles_emitted_spec parse files ⟨[], [], tree0⟩
  rcases hfe : (filterFiles parse ⟨[], [], tree0⟩ files) with ⟨st', err⟩
  rw [hfe] at herr hem
  cases err with
  | none => cases herr
  | some e =>
    have hres : gulpOrderBemDeps parse tree0 files = ⟨st'.emitted, some e⟩ := by
      rw [gulpOrderBemDeps, hfe]
    rw [hres]
    refine ⟨rfl, ?_⟩
    intro s hs
    rcases hem s hs with hmem | ⟨_, hb⟩
    · cases hmem
    · exact hb

/-- C3 witness: a run with a malformed input stem (`bad__` has an empty
sub-entity facet) aborts with an error and emits only independent blocks. -/
theorem c3_invalid_input_aborts_run_witness :
    (gulpOrderBemDeps parseBemIdentifier [] ["ok-block", "bad__"]).error.isSome = true
    ∧ ∀ s ∈ (gulpOrderBemDeps parseBemIdentifier [] ["ok-block", "bad__"]).emitted,
        isBlockBemNaming (parseBemIdentifier s) = true :=
  c3_invalid_input_aborts_run parseBemIdentifier [] ["ok-block", "bad__"]
    ⟨"bad__", by decide, by decide⟩

/-- C3 counterexample: the claim as stated fails for the sub-modifier-value
facet.  The stem `a__e_m_` parses with `elemModVal` equal to the empty string —
a recognized facet of the spec's naming record — yet the run succeeds without
any malformed-naming error and silently emits the file (the empty facet is
dropped when the record is re-serialized), because the validation list names
the nonexistent key `elemVal` instead of `elemModVal`. -/
theorem c3_empty_subvalue_counterexample :
    (parseBemIdentifier "a__e_m_").elemModVal = some ""
    ∧ gulpOrderBemDeps parseBemIdentifier [] ["a__e_m_"] = ⟨["a__e_m_"], none⟩ := by
  refine ⟨by decide, by decide⟩

/-! ### C2: cycle behaviour of the orderers -/

theorem depsOf_entry (g : List (String × List String)) (s : String)
    (h : depsOf g s ≠ []) : (s, depsOf g s) ∈ g := by
  induction g with
  | nil => simp [depsOf] at h
  | cons p rest ih =>
    rw [depsOf] at h ⊢
    by_cases hp : p.1 = s
    · rw [if_pos hp] at h ⊢
      exact List.mem_cons.mpr (Or.inl (by rw [← hp]))
    · rw [if_neg hp] at h ⊢
      exact List.mem_cons_of_mem _ (ih h)

theorem key_of_depsOf {g : List (String × List String)} {s d : String}
    (h : d ∈ depsOf g s) : s ∈ treeKeys g := by
  have hne : depsOf g s ≠ [] := by
    intro h0
    rw [h0] at h
    cases h
  exact List.mem_map.mpr ⟨(s, depsOf g s), depsOf_entry g s hne, rfl⟩

theorem univ_of_depsOf {g : List (String × List String)} {s d : String}
    (h : d ∈ depsOf g s) : d ∈ univList g := by
  have hne : depsOf g s ≠ [] := by
    intro h0
    rw [h0] at h
    cases h
  rw [univList]
  refine List.mem_append.mpr (Or.inr ?_)
  exact List.mem_flatten.mpr
    ⟨depsOf g s, List.mem_map.mpr ⟨_, depsOf_entry g s hne, rfl⟩, h⟩

theorem reaches_key {g : List (String × List String)} {s t : String}
    (h : Reaches g s t) : s ∈ treeKeys g := by
  cases h with
  | edge hd => exact key_of_depsOf hd
  | tail hd _ => exact key_of_depsOf hd

theorem reaches_trans {g : List (String × List String)} {a b c : String}
    (h1 : Reaches g a b) (h2 : Reaches g b c) : Reaches g a c := by
  induction h1 with
  | edge hd => exact Reaches.tail hd h2
  | tail hd _ ih => exact Reaches.tail hd (ih h2)

theorem cyc_succ {g : List (String × List String)} {x : String}
    (h : Reaches g x x) : ∃ y, y ∈ depsOf g x ∧ Reaches g y y := by
  cases h with
  | edge hd => exact ⟨x, hd, Reaches.edge hd⟩
  | tail hd hr => exact ⟨_, hd, reaches_trans hr (Reaches.edge hd)⟩

theorem length_filter_ne_lt (X : List String) (d : String) (h : d ∈ X) :
    (X.filter (fun u => u != d)).length < X.length := by
  induction X with
  | nil => cases h
  | cons u us ih =>
    by_cases hud : u = d
    · subst hud
      rw [List.filter_cons]
      simp only [bne_self_eq_false, Bool.false_eq_true, if_false, List.length_cons]
      exact Nat.lt_succ_of_le (List.length_filter_le _ _)
    · rcases List.mem_cons.mp h with rfl | hmem
      · exact absurd rfl hud
      · rw [List.filter_cons]
        have : (u != d) = true := by simpa using hud
        rw [if_pos this]
        simpa using ih hmem

theorem contains_append_pt (seen : List String) (d u : String) :
    (!((seen ++ [d]).contains u)) = ((!(seen.contains u)) && (u != d)) := by
  by_cases h1 : seen.contains u = true
  · have hm : (seen ++ [d]).contains u = true := by
      rw [contains_iff_mem] at h1 ⊢
      exact List.mem_append.mpr (Or.inl h1)
    rw [h1, hm]
    rfl
  · have h4 : seen.contains u = false := Bool.eq_false_iff.mpr h1
    by_cases h2 : u = d
    · have hm : (seen ++ [d]).contains u = true := by
        rw [contains_iff_mem]
        exact List.mem_append.mpr (Or.inr (by simp [h2]))
      rw [h4, hm, h2]
      simp
    · have hm : (seen ++ [d]).contains u = false := by
        rw [Bool.eq_false_iff]
        intro hc
        rw [contains_iff_mem] at hc
        rcases List.mem_append.mp hc with hx | hx
        · exact h1 ((contains_iff_mem _ _).mpr hx)
        · exact h2 (by simpa using hx)
      rw [h4, hm]
      simp [h2]

theorem unseen_decrease (g : List (String × List String)) (seen : List String)
    (d : String) (hd : d ∈ univList g) (hns : ¬ d ∈ seen) :
    unseenLen g (seen ++ [d]) < unseenLen g seen := by
  rw [unseenLen, unseenLen]
  have hpt : (fun u => !((seen ++ [d]).contains u))
      = (fun u => (!(seen.contains u)) && (u != d)) := funext (contains_append_pt seen d)
  rw [hpt]
  have hcomp : (univList g).filter (fun u => (!(seen.contains u)) && (u != d))
      = ((univList g).filter (fun u => !(seen.contains u))).filter (fun u => u != d) := by
    rw [List.filter_filter]
    refine congrArg (fun p => List.filter p (univList g)) (funext fun u => ?_)
    exact Bool.and_comm _ _
  rw [hcomp]
  refine length_filter_ne_lt _ d ?_
  refine List.mem_filter.mpr ⟨hd, ?_⟩
  have : seen.contains d = false := by
    rw [Bool.eq_false_iff]
    intro hc
    exact hns ((contains_iff_mem _ _).mp hc)
  rw [this]
  rfl

theorem foldlM_err_of_elem {E A B : Type} (step : A → B → Except E A) (ds : List B)
    (d0 : B) (hd0 : d0 ∈ ds) (herr : ∀ acc, ∃ e, step acc d0 = .error e) :
    ∀ acc, ∃ e, ds.foldlM step acc = .error e := by
  induction ds with
  | nil => cases hd0
  | cons d ds ih =>
    intro acc
    rcases List.mem_cons.mp hd0 with rfl | hmem
    · rcases herr acc with ⟨e, he⟩
      exact ⟨e, by rw [List.foldlM_cons, he]; rfl⟩
    · cases hs : step acc d with
      | error e => exact ⟨e, by rw [List.foldlM_cons, hs]; rfl⟩
      | ok a =>
        rcases ih hmem a with ⟨e, he⟩
        exact ⟨e, by rw [List.foldlM_cons, hs]; exact he⟩

theorem foldlM_err_source {E A B : Type} (step : A → B → Except E A) (ds : List B) :
    ∀ (acc : A) (e : E), ds.foldlM step acc = .error e →
      ∃ d ∈ ds, ∃ acc2, step acc2 d = .error e := by
  induction ds with
  | nil =>
    intro acc e h
    rw [List.foldlM_nil] at h
    cases h
  | cons d ds ih =>
    intro acc e h
    rw [List.foldlM_cons] at h
    cases hs : step acc d with
    | error e2 =>
      rw [hs] at h
      have he2 : e2 = e := by
        have : (Except.error e2 : Except E A) = .error e := h
        cases this
        rfl
      exact ⟨d, List.mem_cons_self _ _, acc, by rw [hs, he2]⟩
    | ok a =>
      rw [hs] at h
      rcases ih a e h with ⟨d2, hd2, acc2, h2⟩
      exact ⟨d2, List.mem_cons_of_mem _ hd2, acc2, h2⟩

theorem calc_succ_eq (tree : List (String × List String)) (fuel : Nat) (stem : String)
    (w : Nat) (depTree : List String) :
    calcRecursiveNodeWeight tree (fuel + 1) stem w depTree
      = if !(hasKey tree stem) then .ok (w + 1)
        else if (depsOf tree stem).isEmpty then .ok (w + 1)
        else ((depsOf tree stem).foldlM
            (fun (acc : List Nat) d =>
              if depTree.contains d then Except.error (.cycle depTree)
              else (calcRecursiveNodeWeight tree fuel d (w + 1) (depTree ++ [d])) >>=
                fun v => pure (acc ++ [v]))
            []) >>= fun ws => pure (listMax ws) := rfl

theorem calc_no_fuel (tree : List (String × List String)) :
    ∀ (fuel : Nat) (s : String) (w : Nat) (seen : List String),
      unseenLen tree seen + 1 ≤ fuel →
      calcRecursiveNodeWeight tree fuel s w seen ≠ .error .fuel := by
  intro fuel
  induction fuel with
  | zero =>
    intro s w seen hf
    exact absurd hf (by omega)
  | succ f ih =>
    intro s w seen hf
    rw [calc_succ_eq]
    by_cases h1 : (!(hasKey tree s)) = true
    · rw [if_pos h1]
      intro h
      cases h
    · rw [if_neg h1]
      by_cases h2 : (depsOf tree s).isEmpty = true
      · rw [if_pos h2]
        intro h
        cases h
      · rw [if_neg h2]
        intro hcon
        have hfold : ((depsOf tree s).foldlM
            (fun (acc : List Nat) d =>
              if seen.contains d then Except.error (.cycle seen)
              else (calcRecursiveNodeWeight tree f d (w + 1) (seen ++ [d])) >>=
                fun v => pure (acc ++ [v]))
            []) = .error .fuel := by
          cases hc : ((depsOf tree s).foldlM
              (fun (acc : List Nat) d =>
                if seen.contains d then Except.error (.cycle seen)
                else (calcRecursiveNodeWeight tree f d (w + 1) (seen ++ [d])) >>=
                  fun v => pure (acc ++ [v]))
              []) with
          | error e =>
            rw [hc] at hcon
            have : (Except.error e : Except CalcErr Nat) = .error .fuel := hcon
            cases this
            rfl
          | ok ws =>
            rw [hc] at hcon
            cases hcon
        rcases foldlM_err_source _ _ [] _ hfold with ⟨d, hd, acc2, hstep⟩
        by_cases hds : seen.contains d = true
        · rw [if_pos hds] at hstep
          cases hstep
        · rw [if_neg hds] at hstep
          have hcd : calcRecursiveNodeWeight tree f d (w + 1) (seen ++ [d])
              = .error .fuel := by
            cases hc2 : calcRecursiveNodeWeight tree f d (w + 1) (seen ++ [d]) with
            | error e2 =>
              rw [hc2] at hstep
              have : (Except.error e2 : Except CalcErr (List Nat)) = .error .fuel := hstep
              cases this
              rfl
            | ok v =>
              rw [hc2] at hstep
              cases hstep
          have hkey : hasKey tree s = true := by
            cases hk : hasKey tree s
            · rw [hk] at h1
              exact absurd rfl h1
            · rfl
          have hdu : d ∈ univList tree := univ_of_depsOf hd
          have hdns : ¬ d ∈ seen := fun hm => hds ((contains_iff_mem _ _).mpr hm)
          have hlt := unseen_decrease tree seen d hdu hdns
          exact ih d (w + 1) (seen ++ [d]) (by omega) hcd

theorem calc_cycle_errs (tree : List (String × List String)) :
    ∀ (fuel : Nat) (x : String) (w : Nat) (seen : List String),
      unseenLen tree seen + 1 ≤ fuel → Reaches tree x x →
      ∃ e, calcRecursiveNodeWeight tree fuel x w seen = .error e := by
  intro fuel
  induction fuel with
  | zero =>
    intro x w seen hf _
    exact absurd hf (by omega)
  | succ f ih =>
    intro x w seen hf hx
    obtain ⟨y, hy, hyy⟩ := cyc_succ hx
    have hkey : hasKey tree x = true :=
      (contains_iff_mem _ _).mpr (reaches_key hx)
    have h2 : (depsOf tree x).isEmpty = false := by
      cases hdeps : depsOf tree x with
      | nil =>
        rw [hdeps] at hy
        cases hy
      | cons a l => rfl
    rw [calc_succ_eq, hkey]
    simp only [Bool.not_true, Bool.false_eq_true, if_false, h2]
    have herr : ∀ acc : List Nat,
        ∃ e, (if seen.contains y then Except.error (.cycle seen)
          else (calcRecursiveNodeWeight tree f y (w + 1) (seen ++ [y])) >>=
            fun v => pure (acc ++ [v])) = .error e := by
      intro acc
      by_cases hys : seen.contains y = true
      · exact ⟨.cycle seen, by rw [if_pos hys]⟩
      · have hyu : y ∈ univList tree := univ_of_depsOf hy
        have hyns : ¬ y ∈ seen := fun hm => hys ((contains_iff_mem _ _).mpr hm)
        have hlt := unseen_decrease tree seen y hyu hyns
        rcases ih y (w + 1) (seen ++ [y]) (by omega) hyy with ⟨e, he⟩
        exact ⟨e, by rw [if_neg hys, he]; rfl⟩
    rcases foldlM_err_of_elem
        (fun (acc : List Nat) d =>
          if seen.contains d then Except.error (.cycle seen)
          else (calcRecursiveNodeWeight tree f d (w + 1) (seen ++ [d])) >>=
            fun v => pure (acc ++ [v]))
        (depsOf tree x) y hy herr [] with ⟨e, he⟩
    exact ⟨e, by rw [he]; rfl⟩

theorem unseen_initial (tree : List (String × List String)) :
    unseenLen tree [] + 1 ≤ weightFuel tree := by
  rw [unseenLen, weightFuel]
  have hfil : (univList tree).filter (fun u => !(([] : List String).contains u))
      = univList tree := List.filter_eq_self.mpr (fun a _ => rfl)
  rw [hfil]
  omega

theorem calcTree_errs (tree : List (String × List String)) (a b : String)
    (hab : Reaches tree a b) (hba : Reaches tree b a) :
    ∃ p, calcTreeNodesWeight tree (weightFuel tree) = .error (.cycle p) := by
  have haa : Reaches tree a a := reaches_trans hab hba
  obtain ⟨pa, hpa, hpa1⟩ := List.mem_map.mp (reaches_key haa)
  have herrA : ∀ acc : List (String × Nat),
      ∃ e, ((calcRecursiveNodeWeight tree (weightFuel tree) pa.1 0 []) >>=
          fun w => pure (acc ++ [(pa.1, w)])) = .error e := by
    intro acc
    rcases calc_cycle_errs tree (weightFuel tree) pa.1 0 []
        (unseen_initial tree) (by rw [hpa1]; exact haa) with ⟨e, he⟩
    exact ⟨e, by rw [he]; rfl⟩
  rcases foldlM_err_of_elem
      (fun (acc : List (String × Nat)) p =>
        (calcRecursiveNodeWeight tree (weightFuel tree) p.1 0 []) >>=
          fun w => pure (acc ++ [(p.1, w)]))
      tree pa hpa herrA [] with ⟨e, he⟩
  have hct : calcTreeNodesWeight tree (weightFuel tree) = .error e := he
  rcases foldlM_err_source _ tree [] e he with ⟨q, _, acc2, hstep⟩
  have hcalc : calcRecursiveNodeWeight tree (weightFuel tree) q.1 0 [] = .error e := by
    cases hc : calcRecursiveNodeWeight tree (weightFuel tree) q.1 0 [] with
    | error e2 =>
      rw [hc] at hstep
      have : (Except.error e2 : Except CalcErr (List (String × Nat))) = .error e := hstep
      cases this
      rfl
    | ok w =>
      rw [hc] at hstep
      cases hstep
  cases e with
  | fuel =>
    exact absurd hcalc (calc_no_fuel tree (weightFuel tree) q.1 0 [] (unseen_initial tree))
  | cycle p => exact ⟨p, hct⟩

/-- C2 (amended): on every declaration tree in which stems A and B depend on
each other, directly or transitively, the weight-based orderer
(`calcRecursiveNodeWeight` via `calcTreeNodesWeight`) terminates — its fuel is
proved sufficient — and throws a circular-dependency error rather than
producing weights.  On the direct two-stem cycle the thrown error carries the
recursion path naming both stems.  The BFS-based orderer of the same
repository, by contrast, raises no error on a cycle: on the direct two-stem
cycle it terminates and silently emits neither stem. -/
theorem c2_cycle_detection (tree : List (String × List String)) (a b : String)
    (hab : Reaches tree a b) (hba : Reaches tree b a) :
    (∃ p, calcTreeNodesWeight tree (weightFuel tree) = .error (.cycle p))
    ∧ calcTreeNodesWeight [("a", ["b"]), ("b", ["a"])]
        (weightFuel [("a", ["b"]), ("b", ["a"])]) = .error (.cycle ["b", "a"])
    ∧ bfsOutputTreeMap [("a", ["b"]), ("b", ["a"])] ["a", "b"] = [] :=
  ⟨calcTree_errs tree a b hab hba, by decide, by decide⟩

/-- C2 witness: the direct two-stem cycle. -/
theorem c2_cycle_detection_witness :
    (∃ p, calcTreeNodesWeight [("a", ["b"]), ("b", ["a"])]
        (weightFuel [("a", ["b"]), ("b", ["a"])]) = .error (.cycle p))
    ∧ calcTreeNodesWeight [("a", ["b"]), ("b", ["a"])]
        (weightFuel [("a", ["b"]), ("b", ["a"])]) = .error (.cycle ["b", "a"])
    ∧ bfsOutputTreeMap [("a", ["b"]), ("b", ["a"])] ["a", "b"] = [] :=
  c2_cycle_detection [("a", ["b"]), ("b", ["a"])] "a" "b"
    (Reaches.edge (by decide)) (Reaches.edge (by decide))

/-- C2 counterexample: the claim as stated fails for the BFS generation of the
orderer.  On the declaration set where `a` and `b` depend on each other, the
full first-generation pipeline terminates with no error at all — no cycle error
naming the stems is ever produced; the two files are silently dropped. -/
theorem c2_bfs_no_cycle_error :
    gulpOrderBemDeps parseBemIdentifier [("a", ["b"]), ("b", ["a"])] ["a", "b"]
      = ⟨[], none⟩ := by decide

/-! ### C10: independent blocks are pushed first, in arrival order -/

theorem hasKey_append_single (t : List (String × List String)) (f k : String) :
    hasKey (t ++ [(f, [])]) k = true ↔ hasKey t k = true ∨ k = f := by
  rw [hasKey, hasKey, contains_iff_mem, contains_iff_mem, treeKeys, treeKeys,
    List.map_append, List.mem_append]
  simp

theorem bfsMapAux_subset (P : List String) :
    ∀ (fuel : Nat) (td : List (String × List String)) (fh : List String)
      (q : List QueueNode) (out : List String),
      (∀ s ∈ out, s ∈ P) → (∀ s ∈ fh, s ∈ P) →
      ∀ s ∈ bfsMapAux fuel td fh q out, s ∈ P := by
  intro fuel
  induction fuel with
  | zero => intro td fh q out hout _ s hs; exact hout s hs
  | succ f ih =>
    intro td fh q out hout hfh s hs
    cases q with
    | nil =>
      rw [bfsMapAux] at hs
      exact hout s hs
    | cons node rest =>
      rw [bfsMapAux] at hs
      rcases node with ⟨nstem, ndeps⟩
      rcases nstem with _ | st
      · exact ih _ _ _ _ hout hfh s hs
      · simp only [] at hs
        by_cases hc : fh.contains st = true
        · rw [if_pos hc] at hs
          refine ih _ _ _ _ ?_ ?_ s hs
          · intro x hx
            rcases List.mem_append.mp hx with hx | hx
            · exact hout x hx
            · have hxs : x = st := by simpa using hx
              exact hxs ▸ hfh st ((contains_iff_mem _ _).mp hc)
          · intro x hx
            exact hfh x (List.mem_of_mem_erase hx)
        · rw [if_neg hc] at hs
          exact ih _ _ _ _ hout hfh s hs

theorem bfsOutputTreeMap_subset (tree : List (String × List String)) (P : List String) :
    ∀ s ∈ bfsOutputTreeMap tree P, s ∈ P := by
  intro s hs
  exact bfsMapAux_subset P _ _ _ _ [] (by intro x hx; cases hx) (fun x hx => hx) s hs

theorem filterFiles_ok_spec (parse : String → BemNaming)
    (tree0 : List (String × List String)) :
    ∀ (files : List String) (st : FilterState),
      files.Nodup →
      (∀ f ∈ files, isBlockBemNaming (parse f) = true → (parse f).block = f) →
      (∀ k, hasKey st.tree k = true → hasKey tree0 k = true ∨ k ∈ st.kept) →
      (∀ k, hasKey tree0 k = true → hasKey st.tree k = true) →
      (∀ k ∈ st.kept, ¬ k ∈ files) →
      (filterFiles parse st files).2 = none →
      (filterFiles parse st files).1.emitted
          = st.emitted ++ files.filter (independentFile parse tree0)
      ∧ (filterFiles parse st files).1.kept
          = st.kept ++ files.filter (fun f => !(independentFile parse tree0 f)) := by
  intro files
  induction files with
  | nil =>
    intro st _ _ _ _ _ _
    constructor <;> simp [filterFiles]
  | cons f rest ih =>
    intro st hnd hsane hI1 hI2 hI3 hok
    rw [filterFiles] at hok ⊢
    by_cases hbad : isBadNaming (parse f) = true
    · rw [if_pos hbad] at hok
      cases hok
    · rw [if_neg hbad] at hok ⊢
      have hcheck : (isBlockBemNaming (parse f) && !(hasKey st.tree (parse f).block))
          = independentFile parse tree0 f := by
        rw [independentFile]
        by_cases hblk : isBlockBemNaming (parse f) = true
        · rw [hblk]
          have hbe : (parse f).block = f := hsane f (List.mem_cons_self _ _) hblk
          rw [hbe]
          have htreq : hasKey st.tree f = hasKey tree0 f := by
            cases h0 : hasKey tree0 f
            · cases h1 : hasKey st.tree f
              · rfl
              · rcases hI1 f h1 with hk | hk
                · rw [h0] at hk
                  cases hk
                · exact absurd (List.mem_cons_self f rest) (hI3 f hk)
            · rw [hI2 f h0]
          rw [htreq]
        · have hb0 : isBlockBemNaming (parse f) = false :=
            Bool.eq_false_iff.mpr hblk
          rw [hb0]
          rfl
      rw [hcheck] at hok ⊢
      have hndr : rest.Nodup := hnd.of_cons
      have hsr : ∀ g ∈ rest, isBlockBemNaming (parse g) = true → (parse g).block = g :=
        fun g hg => hsane g (List.mem_cons_of_mem _ hg)
      by_cases hind : independentFile parse tree0 f = true
      · rw [if_pos hind] at hok ⊢
        have hres := ih { st with emitted := st.emitted ++ [f] } hndr hsr hI1 hI2
          (fun k hk => fun hm => hI3 k hk (List.mem_cons_of_mem _ hm)) hok
        refine ⟨?_, ?_⟩
        · rw [hres.1]
          simp [List.filter_cons, hind]
        · rw [hres.2]
          simp [List.filter_cons, hind]
      · rw [if_neg hind] at hok ⊢
        have hI1' : ∀ k,
            hasKey (if hasKey st.tree f then st.tree else st.tree ++ [(f, [])]) k = true →
            hasKey tree0 k = true ∨ k ∈ st.kept ++ [f] := by
          intro k hk
          by_cases hhk : hasKey st.tree f = true
          · rw [if_pos hhk] at hk
            rcases hI1 k hk with h | h
            · exact Or.inl h
            · exact Or.inr (List.mem_append.mpr (Or.inl h))
          · rw [if_neg hhk] at hk
            rcases (hasKey_append_single _ _ _).mp hk with h | rfl
            · rcases hI1 k h with h2 | h2
              · exact Or.inl h2
              · exact Or.inr (List.mem_append.mpr (Or.inl h2))
            · exact Or.inr (List.mem_append.mpr (Or.inr (by simp)))
        have hI2' : ∀ k, hasKey tree0 k = true →
            hasKey (if hasKey st.tree f then st.tree else st.tree ++ [(f, [])]) k = true := by
          intro k hk
          by_cases hhk : hasKey st.tree f = true
          · rw [if_pos hhk]
            exact hI2 k hk
          · rw [if_neg hhk]
            exact (hasKey_append_single _ _ _).mpr (Or.inl (hI2 k hk))
        have hI3' : ∀ k ∈ st.kept ++ [f], ¬ k ∈ rest := by
          intro k hk
          rcases List.mem_append.mp hk with h | h
          · exact fun hm => hI3 k h (List.mem_cons_of_mem _ hm)
          · have : k = f := by simpa using h
            subst this
            exact (List.nodup_cons.mp hnd).1
        have hres := ih ⟨st.emitted, st.kept ++ [f],
            if hasKey st.tree f then st.tree else st.tree ++ [(f, [])]⟩
          hndr hsr hI1' hI2' hI3' hok
        refine ⟨?_, ?_⟩
        · rw [hres.1]
          simp [List.filter_cons, hind]
        · rw [hres.2]
          simp [List.filter_cons, hind]

/-- C10: in an error-free run with duplicate-free input stems (and a parser
that names a block-only stem after the stem itself), every input file that
parses as block-only and whose block is not a node of the declaration tree is
pushed during the filter pass, before graph enrichment and ordering: the output
starts with exactly those files in their arrival order, and everything after
them is a non-independent input file emitted by the ordering BFS. -/
theorem c10_independent_blocks_first (parse : String → BemNaming)
    (tree0 : List (String × List String)) (files : List String)
    (hnd : files.Nodup)
    (hsane : ∀ f ∈ files, isBlockBemNaming (parse f) = true → (parse f).block = f)
    (hok : (gulpOrderBemDeps parse tree0 files).error = none) :
    ∃ rest, (gulpOrderBemDeps parse tree0 files).emitted
        = files.filter (independentFile parse tree0) ++ rest
      ∧ ∀ s ∈ rest, s ∈ files ∧ independentFile parse tree0 s = false := by
  rcases hfe : filterFiles parse ⟨[], [], tree0⟩ files with ⟨st', err⟩
  cases err with
  | some e =>
    have : gulpOrderBemDeps parse tree0 files = ⟨st'.emitted, some e⟩ := by
      rw [gulpOrderBemDeps, hfe]
    rw [this] at hok
    cases hok
  | none =>
    have hspec := filterFiles_ok_spec parse tree0 files ⟨[], [], tree0⟩ hnd hsane
      (fun k hk => Or.inl hk) (fun k hk => hk) (by intro k hk; cases hk)
      (by rw [hfe])
    rw [hfe] at hspec
    rcases hab : addBasicDependencies parse st'.tree with ⟨tree2, err2⟩
    cases err2 with
    | some e =>
      have : gulpOrderBemDeps parse tree0 files = ⟨st'.emitted, some e⟩ := by
        rw [gulpOrderBemDeps, hfe]
        simp only []
        rw [hab]
      rw [this] at hok
      cases hok
    | none =>
      have hres : gulpOrderBemDeps parse tree0 files
          = ⟨st'.emitted ++ bfsOutputTreeMap (addRootDependencies tree2) st'.kept, none⟩ := by
        rw [gulpOrderBemDeps, hfe]
        simp only []
        rw [hab]
      refine ⟨bfsOutputTreeMap (addRootDependencies tree2) st'.kept, ?_, ?_⟩
      · rw [hres]
        have h1 : st'.emitted = files.filter (independentFile parse tree0) := by
          simpa using hspec.1
        rw [h1]
      · intro s hs
        have hmem : s ∈ st'.kept := bfsOutputTreeMap_subset _ _ s hs
        have h2 : st'.kept = files.filter (fun f => !(independentFile parse tree0 f)) := by
          simpa using hspec.2
        rw [h2] at hmem
        have : s ∈ files.filter (fun f => !(independentFile parse tree0 f)) := hmem
        have hf := List.mem_filter.mp this
        refine ⟨hf.1, ?_⟩
        have hb := hf.2
        rcases h : independentFile parse tree0 s with _ | _
        · rfl
        · rw [h] at hb
          cases hb

/-- C10 witness: one independent block (`indep`), one declared block (`b1`) and
one element file (`x__y`). -/
theorem c10_independent_blocks_first_witness :
    ∃ rest, (gulpOrderBemDeps parseBemIdentifier [("b1", [])]
        ["indep", "b1", "x__y"]).emitted
        = (["indep", "b1", "x__y"].filter
            (independentFile parseBemIdentifier [("b1", [])])) ++ rest
      ∧ ∀ s ∈ rest, s ∈ ["indep", "b1", "x__y"]
          ∧ independentFile parseBemIdentifier [("b1", [])] s = false :=
  c10_independent_blocks_first parseBemIdentifier [("b1", [])] ["indep", "b1", "x__y"]
    (by decide) (by decide) (by decide)

/-! ### C6: the longest-path depth orderer -/

theorem charsLe_cons_iff (x y : Char) (xs ys : List Char) :
    charsLe (x :: xs) (y :: ys) = true
      ↔ x.toNat < y.toNat ∨ (x.toNat = y.toNat ∧ charsLe xs ys = true) := by
  rw [charsLe]
  by_cases h1 : x.toNat < y.toNat
  · rw [if_pos h1]
    simp [h1]
  · rw [if_neg h1]
    by_cases h2 : y.toNat < x.toNat
    · rw [if_pos h2]
      constructor
      · intro h
        cases h
      · intro h
        rcases h with h | ⟨h, _⟩ <;> omega
    · rw [if_neg h2]
      constructor
      · intro h
        exact Or.inr ⟨by omega, h⟩
      · intro h
        rcases h with h | ⟨_, h⟩
        · omega
        · exact h

theorem charsLe_total : ∀ a b : List Char, charsLe a b = true ∨ charsLe b a = true := by
  intro a
  induction a with
  | nil => intro b; exact Or.inl rfl
  | cons c cs ih =>
    intro b
    cases b with
    | nil => exact Or.inr rfl
    | cons d ds =>
      rw [charsLe_cons_iff, charsLe_cons_iff]
      by_cases h1 : c.toNat < d.toNat
      · exact Or.inl (Or.inl h1)
      · by_cases h2 : d.toNat < c.toNat
        · exact Or.inr (Or.inl h2)
        · rcases ih ds with h | h
          · exact Or.inl (Or.inr ⟨by omega, h⟩)
          · exact Or.inr (Or.inr ⟨by omega, h⟩)

theorem charsLe_trans : ∀ a b c : List Char,
    charsLe a b = true → charsLe b c = true → charsLe a c = true := by
  intro a
  induction a with
  | nil => intro b c _ _; rfl
  | cons x xs ih =>
    intro b c hab hbc
    cases b with
    | nil => cases hab
    | cons y ys =>
      cases c with
      | nil => cases hbc
      | cons z zs =>
        rw [charsLe_cons_iff] at hab hbc ⊢
        rcases hab with h1 | ⟨h1, h1t⟩
        · rcases hbc with h2 | ⟨h2, _⟩
          · exact Or.inl (by omega)
          · exact Or.inl (by omega)
        · rcases hbc with h2 | ⟨h2, h2t⟩
          · exact Or.inl (by omega)
          · exact Or.inr ⟨by omega, ih ys zs h1t h2t⟩

theorem strLe_total (a b : String) : strLe a b = true ∨ strLe b a = true :=
  charsLe_total a.data b.data

theorem strLe_trans (a b c : String) (h1 : strLe a b = true) (h2 : strLe b c = true) :
    strLe a c = true :=
  charsLe_trans a.data b.data c.data h1 h2

theorem depthNodeLe_total (a b : Nat × String) :
    depthNodeLe a b = true ∨ depthNodeLe b a = true := by
  rw [depthNodeLe, depthNodeLe]
  by_cases h1 : a.1 < b.1
  · exact Or.inl (by simp [h1])
  · by_cases h2 : b.1 < a.1
    · exact Or.inr (by simp [h2])
    · have he : a.1 = b.1 := by omega
      rcases strLe_total a.2 b.2 with h | h
      · exact Or.inl (by simp [h1, he, h])
      · exact Or.inr (by simp [h2, he, h])

theorem depthNodeLe_trans (a b c : Nat × String)
    (h1 : depthNodeLe a b = true) (h2 : depthNodeLe b c = true) :
    depthNodeLe a c = true := by
  rw [depthNodeLe] at h1 h2 ⊢
  simp only [Bool.or_eq_true, Bool.and_eq_true, decide_eq_true_eq, beq_iff_eq] at h1 h2 ⊢
  rcases h1 with h1 | ⟨h1, h1s⟩
  · rcases h2 with h2 | ⟨h2, _⟩
    · exact Or.inl (by omega)
    · exact Or.inl (by omega)
  · rcases h2 with h2 | ⟨h2, h2s⟩
    · exact Or.inl (by omega)
    · exact Or.inr ⟨by omega, strLe_trans _ _ _ h1s h2s⟩

theorem depsOf_rank {g : List (String × List String)} {rank : String → Nat}
    (hr : RankCompat g rank) {s d : String} (hd : d ∈ depsOf g s) :
    rank d < rank s := by
  have hne : depsOf g s ≠ [] := by
    intro h0
    rw [h0] at hd
    cases hd
  exact hr (s, depsOf g s) (depsOf_entry g s hne) d hd

theorem getNodeDepth_shift (g : List (String × List String)) :
    ∀ (fuel : Nat) (s : String) (b : Nat),
      getNodeDepth g fuel s b = b + getNodeDepth g fuel s 0 := by
  intro fuel
  induction fuel with
  | zero => intro s b; simp [getNodeDepth]
  | succ f ih =>
    intro s b
    rw [getNodeDepth, getNodeDepth]
    by_cases h1 : (!(hasKey g s)) = true
    · rw [if_pos h1, if_pos h1]
      omega
    · rw [if_neg h1, if_neg h1]
      by_cases h2 : (depsOf g s).isEmpty = true
      · rw [if_pos h2, if_pos h2]
        omega
      · rw [if_neg h2, if_neg h2]
        have hne : depsOf g s ≠ [] := by
          intro h0
          rw [h0] at h2
          exact h2 rfl
        have hmapb : (depsOf g s).map (fun d => getNodeDepth g f d (b + 1))
            = (depsOf g s).map (fun d => (b + 1) + getNodeDepth g f d 0) :=
          List.map_congr_left (fun d _ => ih d (b + 1))
        have hmap1 : (depsOf g s).map (fun d => getNodeDepth g f d (0 + 1))
            = (depsOf g s).map (fun d => 1 + getNodeDepth g f d 0) :=
          List.map_congr_left (fun d _ => by rw [ih d (0 + 1)])
        rw [hmapb, hmap1, listMax_map_add _ _ _ hne, listMax_map_add _ _ _ hne]
        omega

theorem getNodeDepth_stable (g : List (String × List String)) (rank : String → Nat)
    (hr : RankCompat g rank) :
    ∀ (n : Nat) (s : String), rank s ≤ n → ∀ f1 f2 : Nat, n < f1 → n < f2 →
      getNodeDepth g f1 s 0 = getNodeDepth g f2 s 0 := by
  intro n
  induction n with
  | zero =>
    intro s hs f1 f2 hf1 hf2
    rcases f1 with _ | m1
    · omega
    rcases f2 with _ | m2
    · omega
    rw [getNodeDepth, getNodeDepth]
    by_cases h1 : (!(hasKey g s)) = true
    · rw [if_pos h1, if_pos h1]
    · rw [if_neg h1, if_neg h1]
      by_cases h2 : (depsOf g s).isEmpty = true
      · rw [if_pos h2, if_pos h2]
      · rcases hdeps : depsOf g s with _ | ⟨d, ds⟩
        · rw [hdeps] at h2
          exact absurd rfl h2
        · have : rank d < rank s := depsOf_rank hr (by rw [hdeps]; exact List.mem_cons_self _ _)
          omega
  | succ n ih =>
    intro s hs f1 f2 hf1 hf2
    rcases f1 with _ | m1
    · omega
    rcases f2 with _ | m2
    · omega
    rw [getNodeDepth, getNodeDepth]
    by_cases h1 : (!(hasKey g s)) = true
    · rw [if_pos h1, if_pos h1]
    · rw [if_neg h1, if_neg h1]
      by_cases h2 : (depsOf g s).isEmpty = true
      · rw [if_pos h2, if_pos h2]
      · rw [if_neg h2, if_neg h2]
        refine congrArg listMax (List.map_congr_left fun d hd => ?_)
        have hrd : rank d < rank s := depsOf_rank hr hd
        have hd0 : getNodeDepth g m1 d 0 = getNodeDepth g m2 d 0 :=
          ih d (by omega) m1 m2 (by omega) (by omega)
        rw [getNodeDepth_shift g m1 d (0 + 1), getNodeDepth_shift g m2 d (0 + 1), hd0]

theorem getNodeDepth_recurrence (g : List (String × List String)) (rank : String → Nat)
    (fuel : Nat) (hr : RankCompat g rank)
    (hf : ∀ u ∈ univList g, rank u + 1 < fuel)
    (s : String) (hs : s ∈ treeKeys g) :
    depthOf g fuel s = if (depsOf g s).isEmpty then 0
      else 1 + listMax ((depsOf g s).map (fun d => depthOf g fuel d)) := by
  have hsu : s ∈ univList g := by
    rw [univList]
    exact List.mem_append.mpr (Or.inl hs)
  rcases fuel with _ | m
  · have := hf s hsu
    omega
  rw [depthOf, getNodeDepth]
  have hk : hasKey g s = true := (contains_iff_mem _ _).mpr hs
  rw [hk]
  simp only [Bool.not_true, Bool.false_eq_true, if_false]
  by_cases h2 : (depsOf g s).isEmpty = true
  · rw [if_pos h2, if_pos h2]
  · rw [if_neg h2, if_neg h2]
    have hne : depsOf g s ≠ [] := by
      intro h0
      rw [h0] at h2
      exact h2 rfl
    have hmap : (depsOf g s).map (fun d => getNodeDepth g m d (0 + 1))
        = (depsOf g s).map (fun d => 1 + depthOf g (m + 1) d) := by
      refine List.map_congr_left fun d hd => ?_
      have hdu : d ∈ univList g := univ_of_depsOf hd
      have hst : getNodeDepth g m d 0 = getNodeDepth g (m + 1) d 0 := by
        have := hf d hdu
        exact getNodeDepth_stable g rank hr (rank d) d (le_refl _) m (m + 1)
          (by omega) (by omega)
      rw [getNodeDepth_shift g m d (0 + 1), hst]
      rfl
    rw [hmap, listMax_map_add _ _ _ hne]

theorem buildDepthGraph_sorted (g : List (String × List String)) (fuel : Nat) :
    List.Pairwise
      (fun s1 s2 => depthOf g fuel s1 < depthOf g fuel s2
        ∨ (depthOf g fuel s1 = depthOf g fuel s2 ∧ strLe s1 s2 = true))
      (buildDepthGraph g fuel) := by
  rw [buildDepthGraph]
  rw [List.pairwise_map]
  have hsorted := sortLe_pairwise depthNodeLe depthNodeLe_total depthNodeLe_trans
    (g.map (fun p => (getNodeDepth g fuel p.1 0, p.1)))
  have hmem : ∀ x ∈ sortLe depthNodeLe (g.map (fun p => (getNodeDepth g fuel p.1 0, p.1))),
      x.1 = depthOf g fuel x.2 := by
    intro x hx
    have hx2 : x ∈ g.map (fun p => (getNodeDepth g fuel p.1 0, p.1)) :=
      (sortLe_perm _ _).mem_iff.mp hx
    rcases List.mem_map.mp hx2 with ⟨p, _, rfl⟩
    rfl
  refine List.Pairwise.imp_of_mem ?_ hsorted
  intro a b ha hb hab
  rw [depthNodeLe] at hab
  simp only [Bool.or_eq_true, Bool.and_eq_true, decide_eq_true_eq, beq_iff_eq] at hab
  rw [← hmem a ha, ← hmem b hb]
  exact hab

/-- C6: with the tree acyclic (witnessed by a rank function bounded below the
fuel), every tree node's longest-path weight satisfies the claimed recurrence —
0 when it has no dependencies, otherwise 1 plus the maximum weight of its
dependencies — and `buildDepthGraph` lists the stems in ascending weight order
with ties broken by the identifier's string order; any present subset is
therefore emitted in that same ascending order. -/
theorem c6_depth_weight_order (g : List (String × List String)) (rank : String → Nat)
    (fuel : Nat) (present : List String)
    (hr : RankCompat g rank) (hf : ∀ u ∈ univList g, rank u + 1 < fuel) :
    (∀ s ∈ treeKeys g,
        depthOf g fuel s = if (depsOf g s).isEmpty then 0
          else 1 + listMax ((depsOf g s).map (fun d => depthOf g fuel d)))
    ∧ List.Pairwise
        (fun s1 s2 => depthOf g fuel s1 < depthOf g fuel s2
          ∨ (depthOf g fuel s1 = depthOf g fuel s2 ∧ strLe s1 s2 = true))
        (buildDepthGraph g fuel)
    ∧ List.Pairwise
        (fun s1 s2 => depthOf g fuel s1 < depthOf g fuel s2
          ∨ (depthOf g fuel s1 = depthOf g fuel s2 ∧ strLe s1 s2 = true))
        ((buildDepthGraph g fuel).filter (present.contains ·)) :=
  ⟨fun s hs => getNodeDepth_recurrence g rank fuel hr hf s hs,
    buildDepthGraph_sorted g fuel,
    (buildDepthGraph_sorted g fuel).filter _⟩

/-- C6 witness: the `deps-multiple` shaped tree with an explicit rank. -/
theorem c6_depth_weight_order_witness :
    ((∀ s ∈ treeKeys [("block", ["mixins", "variables"]), ("mixins", ["variables"]),
          ("variables", [])],
        depthOf [("block", ["mixins", "variables"]), ("mixins", ["variables"]),
            ("variables", [])] 10 s
          = if (depsOf [("block", ["mixins", "variables"]), ("mixins", ["variables"]),
                ("variables", [])] s).isEmpty then 0
            else 1 + listMax ((depsOf [("block", ["mixins", "variables"]),
                ("mixins", ["variables"]), ("variables", [])] s).map
              (fun d => depthOf [("block", ["mixins", "variables"]),
                  ("mixins", ["variables"]), ("variables", [])] 10 d)))
      ∧ List.Pairwise
          (fun s1 s2 => depthOf [("block", ["mixins", "variables"]),
              ("mixins", ["variables"]), ("variables", [])] 10 s1
              < depthOf [("block", ["mixins", "variables"]), ("mixins", ["variables"]),
                ("variables", [])] 10 s2
            ∨ (depthOf [("block", ["mixins", "variables"]), ("mixins", ["variables"]),
                ("variables", [])] 10 s1
                = depthOf [("block", ["mixins", "variables"]), ("mixins", ["variables"]),
                  ("variables", [])] 10 s2 ∧ strLe s1 s2 = true))
          (buildDepthGraph [("block", ["mixins", "variables"]), ("mixins", ["variables"]),
            ("variables", [])] 10)
      ∧ List.Pairwise
          (fun s1 s2 => depthOf [("block", ["mixins", "variables"]),
              ("mixins", ["variables"]), ("variables", [])] 10 s1
              < depthOf [("block", ["mixins", "variables"]), ("mixins", ["variables"]),
                ("variables", [])] 10 s2
            ∨ (depthOf [("block", ["mixins", "variables"]), ("mixins", ["variables"]),
                ("variables", [])] 10 s1
                = depthOf [("block", ["mixins", "variables"]), ("mixins", ["variables"]),
                  ("variables", [])] 10 s2 ∧ strLe s1 s2 = true))
          ((buildDepthGraph [("block", ["mixins", "variables"]), ("mixins", ["variables"]),
            ("variables", [])] 10).filter
            ((["block", "variables"] : List String).contains ·))) :=
  c6_depth_weight_order [("block", ["mixins", "variables"]), ("mixins", ["variables"]),
      ("variables", [])]
    (fun s => if s = "block" then 2 else if s = "mixins" then 1 else 0)
    10 ["block", "variables"]
    (by rw [RankCompat]; decide) (by decide)

/-! ### C7: the TreeNode BFS agrees with the weight orderer (no ties) -/

theorem gen_length_filter_ne_lt {A : Type} [DecidableEq A] [BEq A] [LawfulBEq A]
    (X : List A) (d : A) (h : d ∈ X) :
    (X.filter (fun u => u != d)).length < X.length := by
  induction X with
  | nil => cases h
  | cons u us ih =>
    by_cases hud : u = d
    · subst hud
      rw [List.filter_cons]
      simp only [bne_self_eq_false, Bool.false_eq_true, if_false, List.length_cons]
      exact Nat.lt_succ_of_le (List.length_filter_le _ _)
    · rcases List.mem_cons.mp h with rfl | hmem
      · exact absurd rfl hud
      · rw [List.filter_cons]
        have : (u != d) = true := by simpa using hud
        rw [if_pos this]
        simpa using ih hmem

theorem gen_contains_append_pt {A : Type} [DecidableEq A] [BEq A] [LawfulBEq A]
    (seen : List A) (d u : A) :
    (!((seen ++ [d]).contains u)) = ((!(seen.contains u)) && (u != d)) := by
  by_cases h1 : seen.contains u = true
  · have hm : (seen ++ [d]).contains u = true := by
      rw [contains_iff_mem] at h1 ⊢
      exact List.mem_append.mpr (Or.inl h1)
    rw [h1, hm]
    rfl
  · have h4 : seen.contains u = false := Bool.eq_false_iff.mpr h1
    by_cases h2 : u = d
    · have hm : (seen ++ [d]).contains u = true := by
        rw [contains_iff_mem]
        exact List.mem_append.mpr (Or.inr (by simp [h2]))
      rw [h4, hm, h2]
      simp
    · have hm : (seen ++ [d]).contains u = false := by
        rw [Bool.eq_false_iff]
        intro hc
        rw [contains_iff_mem] at hc
        rcases List.mem_append.mp hc with hx | hx
        · exact h1 ((contains_iff_mem _ _).mpr hx)
        · exact h2 (by simpa using hx)
      rw [h4, hm]
      simp [h2]

theorem gen_unseen_decrease {A : Type} [DecidableEq A] [BEq A] [LawfulBEq A]
    (univ seen : List A) (d : A) (hd : d ∈ univ) (hns : ¬ d ∈ seen) :
    (univ.filter (fun u => !((seen ++ [d]).contains u))).length
      < (univ.filter (fun u => !(seen.contains u))).length := by
  have hpt : (fun u : A => !((seen ++ [d]).contains u))
      = (fun u => (!(seen.contains u)) && (u != d)) :=
    funext (gen_contains_append_pt seen d)
  rw [hpt]
  have hcomp : univ.filter (fun u => (!(seen.contains u)) && (u != d))
      = (univ.filter (fun u => !(seen.contains u))).filter (fun u => u != d) := by
    rw [List.filter_filter]
    refine congrArg (fun p => List.filter p univ) (funext fun u => ?_)
    exact Bool.and_comm _ _
  rw [hcomp]
  refine gen_length_filter_ne_lt _ d ?_
  refine List.mem_filter.mpr ⟨hd, ?_⟩
  have : seen.contains d = false := by
    rw [Bool.eq_false_iff]
    intro hc
    exact hns ((contains_iff_mem _ _).mp hc)
  rw [this]
  rfl

theorem nodeChildren_subset (g : List (String × List String)) (x : Option String) :
    ∀ c ∈ nodeChildren g x, c ∈ (treeKeys g).map some := by
  intro c hc
  cases x with
  | none => exact hc
  | some d =>
    rw [nodeChildren] at hc
    rcases List.mem_map.mp hc with ⟨t, ht, rfl⟩
    rcases List.mem_map.mp ht with ⟨p, hp, rfl⟩
    exact List.mem_map.mpr ⟨p.1, List.mem_map.mpr ⟨p, (List.filter_sublist g).mem hp, rfl⟩, rfl⟩

theorem nodeChildren_length (g : List (String × List String)) (x : Option String) :
    (nodeChildren g x).length ≤ g.length := by
  cases x with
  | none => simp [nodeChildren, treeKeys]
  | some d =>
    rw [nodeChildren]
    simp only [List.length_map]
    exact le_trans (List.length_filter_le _ _) (le_refl _)

theorem bfsNodeAux_extend (g : List (String × List String)) :
    ∀ (fuel : Nat) (visited queue : List (Option String)),
      ∃ t, (bfsNodeAux g fuel visited queue).1 = visited ++ t := by
  intro fuel
  induction fuel with
  | zero => intro visited queue; exact ⟨[], by simp [bfsNodeAux]⟩
  | succ f ih =>
    intro visited queue
    cases queue with
    | nil => exact ⟨[], by simp [bfsNodeAux]⟩
    | cons x rest =>
      rw [bfsNodeAux]
      by_cases h1 : visited.contains x = true
      · rw [if_pos h1]
        exact ih visited rest
      · rw [if_neg h1]
        by_cases h2 : ((nodeParents g x).all (fun p => visited.contains p)) = true
        · rw [if_pos h2]
          rcases ih (visited ++ [x]) (rest ++ nodeChildren g x) with ⟨t, ht⟩
          exact ⟨[x] ++ t, by rw [ht, List.append_assoc]⟩
        · rw [if_neg h2]
          exact ih visited rest

theorem bfsNodeAux_nodup (g : List (String × List String)) :
    ∀ (fuel : Nat) (visited queue : List (Option String)),
      visited.Nodup → (bfsNodeAux g fuel visited queue).1.Nodup := by
  intro fuel
  induction fuel with
  | zero => intro visited queue h; exact h
  | succ f ih =>
    intro visited queue h
    cases queue with
    | nil => exact h
    | cons x rest =>
      rw [bfsNodeAux]
      by_cases h1 : visited.contains x = true
      · rw [if_pos h1]
        exact ih _ _ h
      · rw [if_neg h1]
        by_cases h2 : ((nodeParents g x).all (fun p => visited.contains p)) = true
        · rw [if_pos h2]
          refine ih _ _ ?_
          rw [List.nodup_append]
          refine ⟨h, by simp, ?_⟩
          intro a ha hb
          have : a = x := by simpa using hb
          subst this
          exact h1 ((contains_iff_mem _ _).mpr ha)
        · rw [if_neg h2]
          exact ih _ _ h

theorem bfsNodeAux_universe (g : List (String × List String)) :
    ∀ (fuel : Nat) (visited queue : List (Option String)),
      (∀ x ∈ visited, x ∈ nodesU g) → (∀ x ∈ queue, x ∈ nodesU g) →
      ∀ x ∈ (bfsNodeAux g fuel visited queue).1, x ∈ nodesU g := by
  intro fuel
  induction fuel with
  | zero => intro visited queue hv _ x hx; exact hv x hx
  | succ f ih =>
    intro visited queue hv hq x hx
    cases queue with
    | nil => exact hv x hx
    | cons y rest =>
      rw [bfsNodeAux] at hx
      by_cases h1 : visited.contains y = true
      · rw [if_pos h1] at hx
        exact ih _ _ hv (fun z hz => hq z (List.mem_cons_of_mem _ hz)) x hx
      · rw [if_neg h1] at hx
        by_cases h2 : ((nodeParents g y).all (fun p => visited.contains p)) = true
        · rw [if_pos h2] at hx
          refine ih _ _ ?_ ?_ x hx
          · intro z hz
            rcases List.mem_append.mp hz with hz | hz
            · exact hv z hz
            · have : z = y := by simpa using hz
              subst this
              exact hq z (List.mem_cons_self _ _)
          · intro z hz
            rcases List.mem_append.mp hz with hz | hz
            · exact hq z (List.mem_cons_of_mem _ hz)
            · exact List.mem_cons_of_mem _ (nodeChildren_subset g y z hz)
        · rw [if_neg h2] at hx
          exact ih _ _ hv (fun z hz => hq z (List.mem_cons_of_mem _ hz)) x hx

theorem parentsBefore_snoc (g : List (String × List String))
    (l : List (Option String)) (x : Option String)
    (hl : ParentsBefore g l) (hx : ∀ p ∈ nodeParents g x, p ∈ l) :
    ParentsBefore g (l ++ [x]) := by
  intro i h p hp
  rcases Nat.lt_or_ge i l.length with hi | hi
  · have hget : (l ++ [x]).get ⟨i, h⟩ = l.get ⟨i, hi⟩ := by
      simp [List.getElem_append_left hi]
    rw [hget] at hp
    have := hl i hi p hp
    rw [List.take_append_of_le_length (by omega)]
    exact this
  · have hieq : i = l.length := by
      rw [List.length_append, List.length_singleton] at h
      omega
    subst hieq
    have hget : (l ++ [x]).get ⟨l.length, h⟩ = x := by
      simp
    rw [hget] at hp
    rw [List.take_append_of_le_length (le_refl _), List.take_length]
    exact hx p hp

theorem bfsNodeAux_parentsBefore (g : List (String × List String)) :
    ∀ (fuel : Nat) (visited queue : List (Option String)),
      ParentsBefore g visited → ParentsBefore g (bfsNodeAux g fuel visited queue).1 := by
  intro fuel
  induction fuel with
  | zero => intro visited queue h; exact h
  | succ f ih =>
    intro visited queue h
    cases queue with
    | nil => exact h
    | cons x rest =>
      rw [bfsNodeAux]
      by_cases h1 : visited.contains x = true
      · rw [if_pos h1]
        exact ih _ _ h
      · rw [if_neg h1]
        by_cases h2 : ((nodeParents g x).all (fun p => visited.contains p)) = true
        · rw [if_pos h2]
          refine ih _ _ ?_
          refine parentsBefore_snoc g visited x h ?_
          intro p hp
          exact (contains_iff_mem _ _).mp (List.all_eq_true.mp h2 p hp)
        · rw [if_neg h2]
          exact ih _ _ h

theorem bfsNodeAux_complete (g : List (String × List String)) :
    ∀ (fuel : Nat) (visited queue : List (Option String)),
      (∀ x ∈ queue, x ∈ nodesU g) →
      queue.length
          + ((nodesU g).filter (fun u => !(visited.contains u))).length * (g.length + 2)
        ≤ fuel →
      (bfsNodeAux g fuel visited queue).2 = [] := by
  intro fuel
  induction fuel with
  | zero =>
    intro visited queue _ hm
    have hq : queue.length = 0 := by omega
    rw [List.length_eq_zero] at hq
    subst hq
    rfl
  | succ f ih =>
    intro visited queue hq hm
    cases queue with
    | nil => rw [bfsNodeAux]
    | cons x rest =>
      rw [bfsNodeAux]
      by_cases h1 : visited.contains x = true
      · rw [if_pos h1]
        refine ih _ _ (fun z hz => hq z (List.mem_cons_of_mem _ hz)) ?_
        rw [List.length_cons] at hm
        omega
      · rw [if_neg h1]
        by_cases h2 : ((nodeParents g x).all (fun p => visited.contains p)) = true
        · rw [if_pos h2]
          have hxU : x ∈ nodesU g := hq x (List.mem_cons_self _ _)
          have hxnv : ¬ x ∈ visited := fun hmem => h1 ((contains_iff_mem _ _).mpr hmem)
          have hdec := gen_unseen_decrease (nodesU g) visited x hxU hxnv
          refine ih _ _ ?_ ?_
          · intro z hz
            rcases List.mem_append.mp hz with hz | hz
            · exact hq z (List.mem_cons_of_mem _ hz)
            · exact List.mem_cons_of_mem _ (nodeChildren_subset g x z hz)
          · have hclen := nodeChildren_length g x
            have hmul :
                ((nodesU g).filter
                    (fun u => !((visited ++ [x]).contains u))).length * (g.length + 2)
                  + (g.length + 2)
                ≤ ((nodesU g).filter (fun u => !(visited.contains u))).length
                    * (g.length + 2) := by
              have hs := Nat.mul_le_mul_right (g.length + 2)
                (Nat.succ_le_of_lt hdec)
              rw [Nat.succ_mul] at hs
              exact hs
            rw [List.length_cons] at hm
            rw [List.length_append]
            omega
        · rw [if_neg h2]
          refine ih _ _ (fun z hz => hq z (List.mem_cons_of_mem _ hz)) ?_
          rw [List.length_cons] at hm
          omega

theorem child_of_parent (g : List (String × List String)) (s x : Option String)
    (hs : s ∈ nodesU g) (hp : x ∈ nodeParents g s) : s ∈ nodeChildren g x := by
  cases s with
  | none => cases hp
  | some t =>
    rw [nodeParents] at hp
    rcases List.mem_cons.mp hp with rfl | hp
    · rw [nodeChildren]
      rcases List.mem_cons.mp hs with hs | hs
      · cases hs
      · exact hs
    · rcases List.mem_map.mp hp with ⟨d, hd, rfl⟩
      rw [nodeChildren]
      have hne : depsOf g t ≠ [] := by
        intro h0
        rw [h0] at hd
        cases hd
      refine List.mem_map.mpr ⟨t, ?_, rfl⟩
      refine List.mem_map.mpr ⟨(t, depsOf g t), ?_, rfl⟩
      refine List.mem_filter.mpr ⟨depsOf_entry g t hne, ?_⟩
      exact (contains_iff_mem _ _).mpr hd

theorem bfsNodeAux_reach (g : List (String × List String)) :
    ∀ (fuel : Nat) (visited queue : List (Option String)),
      (bfsNodeAux g fuel visited queue).2 = [] →
      ∀ s : Option String, s ∈ nodesU g →
        (∀ p ∈ nodeParents g s, p ∈ (bfsNodeAux g fuel visited queue).1) →
        (s ∈ queue ∨ ∃ p ∈ nodeParents g s, ¬ p ∈ visited) →
        s ∈ (bfsNodeAux g fuel visited queue).1 := by
  intro fuel
  induction fuel with
  | zero =>
    intro visited queue hcomp s _ hpar hdisj
    have hq : queue = [] := hcomp
    subst hq
    rcases hdisj with hs | ⟨p, hp, hnv⟩
    · cases hs
    · exact absurd (hpar p hp) hnv
  | succ f ih =>
    intro visited queue hcomp s hsU hpar hdisj
    cases queue with
    | nil =>
      rcases hdisj with hs | ⟨p, hp, hnv⟩
      · cases hs
      · exact absurd (hpar p hp) hnv
    | cons x rest =>
      rw [bfsNodeAux] at hcomp hpar ⊢
      by_cases h1 : visited.contains x = true
      · rw [if_pos h1] at hcomp hpar ⊢
        rcases hdisj with hs | hd2
        · rcases List.mem_cons.mp hs with rfl | hs
          · rcases bfsNodeAux_extend g f visited rest with ⟨t, ht⟩
            rw [ht]
            exact List.mem_append.mpr (Or.inl ((contains_iff_mem _ _).mp h1))
          · exact ih _ _ hcomp s hsU hpar (Or.inl hs)
        · exact ih _ _ hcomp s hsU hpar (Or.inr hd2)
      · rw [if_neg h1] at hcomp hpar ⊢
        by_cases h2 : ((nodeParents g x).all (fun p => visited.contains p)) = true
        · rw [if_pos h2] at hcomp hpar ⊢
          rcases hdisj with hs | ⟨p, hp, hnv⟩
          · rcases List.mem_cons.mp hs with heq | hs
            · rcases bfsNodeAux_extend g f (visited ++ [x]) (rest ++ nodeChildren g x)
                with ⟨t, ht⟩
              rw [ht, heq]
              exact List.mem_append.mpr (Or.inl (by simp))
            · exact ih _ _ hcomp s hsU hpar (Or.inl (List.mem_append.mpr (Or.inl hs)))
          · by_cases hpx : p = x
            · subst hpx
              have hchild : s ∈ nodeChildren g p := child_of_parent g s p hsU hp
              exact ih _ _ hcomp s hsU hpar
                (Or.inl (List.mem_append.mpr (Or.inr hchild)))
            · refine ih _ _ hcomp s hsU hpar (Or.inr ⟨p, hp, ?_⟩)
              intro hmem
              rcases List.mem_append.mp hmem with hmem | hmem
              · exact hnv hmem
              · exact hpx (by simpa using hmem)
        · rw [if_neg h2] at hcomp hpar ⊢
          rcases hdisj with hs | hd2
          · rcases List.mem_cons.mp hs with rfl | hs
            · have hex : ∃ p ∈ nodeParents g s, ¬ p ∈ visited := by
                by_contra hc
                push_neg at hc
                refine h2 (List.all_eq_true.mpr ?_)
                intro p hp
                exact (contains_iff_mem _ _).mpr (hc p hp)
              exact ih _ _ hcomp s hsU hpar (Or.inr hex)
            · exact ih _ _ hcomp s hsU hpar (Or.inl hs)
          · exact ih _ _ hcomp s hsU hpar (Or.inr hd2)

theorem bfsVisitOrder_complete (g : List (String × List String)) :
    (bfsNodeAux g (bfsNodeFuel g) [] [none]).2 = [] := by
  refine bfsNodeAux_complete g _ _ _ ?_ ?_
  · intro x hx
    rcases List.mem_cons.mp hx with rfl | hx
    · exact List.mem_cons_self _ _
    · cases hx
  · have hfil : (nodesU g).filter
        (fun u => !(([] : List (Option String)).contains u)) = nodesU g :=
      List.filter_eq_self.mpr (fun a _ => rfl)
    rw [hfil]
    have hlen : (nodesU g).length = g.length + 1 := by
      simp [nodesU, treeKeys]
    rw [hlen, bfsNodeFuel]
    have hone : ([none] : List (Option String)).length = 1 := rfl
    have hsq : (g.length + 2) * (g.length + 2)
        = (g.length + 1) * (g.length + 2) + (g.length + 2) := by ring
    omega

theorem bfsVisitOrder_root (g : List (String × List String)) :
    none ∈ bfsVisitOrder g := by
  rw [bfsVisitOrder]
  refine bfsNodeAux_reach g _ _ _ (bfsVisitOrder_complete g) none
    (List.mem_cons_self _ _) ?_ (Or.inl (List.mem_cons_self _ _))
  intro p hp
  cases hp

theorem bfsVisitOrder_total (g : List (String × List String)) (rank : String → Nat)
    (hr : RankCompat g rank) (hclosed : ∀ p ∈ g, ∀ d ∈ p.2, d ∈ treeKeys g) :
    ∀ t ∈ treeKeys g, some t ∈ bfsVisitOrder g := by
  have hroot := bfsVisitOrder_root g
  have main : ∀ n : Nat, ∀ t ∈ treeKeys g, rank t ≤ n → some t ∈ bfsVisitOrder g := by
    intro n
    induction n with
    | zero =>
      intro t ht hrt
      rw [bfsVisitOrder]
      refine bfsNodeAux_reach g _ _ _ (bfsVisitOrder_complete g) (some t)
        (List.mem_cons_of_mem _ (List.mem_map.mpr ⟨t, ht, rfl⟩)) ?_
        (Or.inr ⟨none, List.mem_cons_self _ _, fun h => by cases h⟩)
      intro p hp
      rcases List.mem_cons.mp hp with rfl | hp
      · exact hroot
      · rcases List.mem_map.mp hp with ⟨d, hd, rfl⟩
        have := depsOf_rank hr hd
        omega
    | succ n ih =>
      intro t ht hrt
      rw [bfsVisitOrder]
      refine bfsNodeAux_reach g _ _ _ (bfsVisitOrder_complete g) (some t)
        (List.mem_cons_of_mem _ (List.mem_map.mpr ⟨t, ht, rfl⟩)) ?_
        (Or.inr ⟨none, List.mem_cons_self _ _, fun h => by cases h⟩)
      intro p hp
      rcases List.mem_cons.mp hp with rfl | hp
      · exact hroot
      · rcases List.mem_map.mp hp with ⟨d, hd, rfl⟩
        have hlt := depsOf_rank hr hd
        have hne : depsOf g t ≠ [] := by
          intro h0
          rw [h0] at hd
          cases hd
        have hdk : d ∈ treeKeys g :=
          hclosed (t, depsOf g t) (depsOf_entry g t hne) d hd
        exact ih d hdk (by omega)
  intro t ht
  exact main (rank t) t ht (le_refl _)

theorem posOf_lt_length {A : Type} [DecidableEq A] (x : A) :
    ∀ l : List A, x ∈ l → posOf x l < l.length := by
  intro l
  induction l with
  | nil => intro h; cases h
  | cons a l ih =>
    intro h
    rw [posOf, List.length_cons]
    by_cases hax : a = x
    · rw [if_pos hax]
      omega
    · rw [if_neg hax]
      have hx : x ∈ l := by
        rcases List.mem_cons.mp h with heq | h
        · exact absurd heq.symm hax
        · exact h
      have := ih hx
      omega

theorem get_posOf {A : Type} [DecidableEq A] (x : A) :
    ∀ (l : List A), x ∈ l → ∀ h : posOf x l < l.length, l.get ⟨posOf x l, h⟩ = x := by
  intro l
  induction l with
  | nil => intro h; cases h
  | cons a l ih =>
    intro hm h
    by_cases hax : a = x
    · have h0 : posOf x (a :: l) = 0 := by rw [posOf, if_pos hax]
      rw [List.get_of_eq (by rfl) ⟨posOf x (a :: l), h⟩]
      simp only [h0]
      exact hax
    · have hx : x ∈ l := by
        rcases List.mem_cons.mp hm with heq | hm
        · exact absurd heq.symm hax
        · exact hm
      have hs : posOf x (a :: l) = posOf x l + 1 := by rw [posOf, if_neg hax]
      have hlt : posOf x l < l.length := posOf_lt_length x l hx
      have : l.get ⟨posOf x l, hlt⟩ = x := ih hx hlt
      rw [show (⟨posOf x (a :: l), h⟩ : Fin (a :: l).length)
        = ⟨posOf x l + 1, by rw [List.length_cons]; omega⟩ from Fin.ext hs]
      exact this

theorem posOf_lt_of_mem_take {A : Type} [DecidableEq A] (x : A) :
    ∀ (l : List A) (i : Nat), x ∈ l.take i → posOf x l < i := by
  intro l
  induction l with
  | nil => intro i h; rw [List.take_nil] at h; cases h
  | cons a l ih =>
    intro i h
    cases i with
    | zero =>
      rw [List.take_zero] at h
      cases h
    | succ i =>
      rw [List.take_succ_cons] at h
      rw [posOf]
      by_cases hax : a = x
      · rw [if_pos hax]
        omega
      · rw [if_neg hax]
        have hx : x ∈ l.take i := by
          rcases List.mem_cons.mp h with heq | h
          · exact absurd heq.symm hax
          · exact h
        have := ih i hx
        omega

theorem parentsBefore_posOf (g : List (String × List String))
    (l : List (Option String)) (hpb : ParentsBefore g l)
    (x : Option String) (hx : x ∈ l) (p : Option String) (hp : p ∈ nodeParents g x) :
    p ∈ l ∧ posOf p l < posOf x l := by
  have hi : posOf x l < l.length := posOf_lt_length x l hx
  have hget : l.get ⟨posOf x l, hi⟩ = x := get_posOf x l hx hi
  have htake := hpb (posOf x l) hi p (by rw [hget]; exact hp)
  exact ⟨List.mem_of_mem_take htake, posOf_lt_of_mem_take p l _ htake⟩

theorem reaches_posOf_lt (g : List (String × List String))
    (l : List (Option String)) (hpb : ParentsBefore g l) {t1 t2 : String}
    (hr : Reaches g t1 t2) (h1 : some t1 ∈ l) :
    some t2 ∈ l ∧ posOf (some t2) l < posOf (some t1) l := by
  revert h1
  induction hr with
  | edge hd =>
    intro h1
    refine parentsBefore_posOf g l hpb _ h1 _ ?_
    rw [nodeParents]
    exact List.mem_cons_of_mem _ (List.mem_map.mpr ⟨_, hd, rfl⟩)
  | tail hd _ ih =>
    intro h1
    have hstep := parentsBefore_posOf g l hpb _ h1 (p := some _) (by
      rw [nodeParents]
      exact List.mem_cons_of_mem _ (List.mem_map.mpr ⟨_, hd, rfl⟩))
    rcases ih hstep.1 with ⟨hm, hlt⟩
    exact ⟨hm, by omega⟩

theorem depth_edge_lt (g : List (String × List String)) (rank : String → Nat)
    (fuel : Nat) (hr : RankCompat g rank)
    (hf : ∀ u ∈ univList g, rank u + 1 < fuel)
    {s d : String} (hd : d ∈ depsOf g s) :
    depthOf g fuel d < depthOf g fuel s := by
  have hs : s ∈ treeKeys g := key_of_depsOf hd
  have hrec := getNodeDepth_recurrence g rank fuel hr hf s hs
  have hne : (depsOf g s).isEmpty = false := by
    cases hdeps : depsOf g s with
    | nil =>
      rw [hdeps] at hd
      cases hd
    | cons a tl => rfl
  rw [hrec, if_neg (by rw [hne]; exact Bool.false_ne_true)]
  have hmem : depthOf g fuel d ∈ (depsOf g s).map (fun u => depthOf g fuel u) :=
    List.mem_map.mpr ⟨d, hd, rfl⟩
  have := le_listMax_of_mem hmem
  omega

theorem depth_reaches_lt (g : List (String × List String)) (rank : String → Nat)
    (fuel : Nat) (hr : RankCompat g rank)
    (hf : ∀ u ∈ univList g, rank u + 1 < fuel)
    {a b : String} (hab : Reaches g a b) :
    depthOf g fuel b < depthOf g fuel a := by
  induction hab with
  | edge hd => exact depth_edge_lt g rank fuel hr hf hd
  | tail hd _ ih =>
    have := depth_edge_lt g rank fuel hr hf hd
    omega

theorem calc_fold_ok (g : List (String × List String)) (f w : Nat)
    (seen : List String) (vals : String → Nat) :
    ∀ (ds : List String) (acc : List Nat),
      (∀ d ∈ ds, seen.contains d = false
        ∧ calcRecursiveNodeWeight g f d (w + 1) (seen ++ [d]) = .ok (vals d)) →
      (ds.foldlM
          (fun (acc : List Nat) d =>
            if seen.contains d then Except.error (.cycle seen)
            else (calcRecursiveNodeWeight g f d (w + 1) (seen ++ [d])) >>=
              fun v => pure (acc ++ [v]))
          acc)
        = .ok (acc ++ ds.map vals) := by
  intro ds
  induction ds with
  | nil =>
    intro acc _
    rw [List.foldlM_nil]
    simp only [List.map_nil, List.append_nil]
    rfl
  | cons d ds ih =>
    intro acc hall
    rcases hall d (List.mem_cons_self _ _) with ⟨hc, hv⟩
    rw [List.foldlM_cons]
    show (if seen.contains d then Except.error (.cycle seen)
        else (calcRecursiveNodeWeight g f d (w + 1) (seen ++ [d])) >>=
          fun v => pure (acc ++ [v])) >>= _ = _
    rw [hc]
    simp only [Bool.false_eq_true, if_false, hv]
    show (ds.foldlM _ (acc ++ [vals d])) = _
    rw [ih (acc ++ [vals d]) (fun x hx => hall x (List.mem_cons_of_mem _ hx))]
    simp

theorem calc_ok_eq (g : List (String × List String)) (rank : String → Nat)
    (hr : RankCompat g rank)
    (hfb : ∀ u ∈ univList g, rank u + 1 < weightFuel g) :
    ∀ (fuel : Nat) (s : String) (w : Nat) (seen : List String),
      unseenLen g seen + 1 ≤ fuel → (∀ u ∈ seen, rank s ≤ rank u) →
      calcRecursiveNodeWeight g fuel s w seen
        = .ok (w + 1 + depthOf g (weightFuel g) s) := by
  intro fuel
  induction fuel with
  | zero =>
    intro s w seen hfu _
    exact absurd hfu (by omega)
  | succ f ih =>
    intro s w seen hfu hseen
    rw [calc_succ_eq]
    by_cases h1 : hasKey g s = true
    · rw [show (!(hasKey g s)) = false by rw [h1]; rfl]
      simp only [Bool.false_eq_true, if_false]
      have hs : s ∈ treeKeys g := (contains_iff_mem _ _).mp h1
      have hrec := getNodeDepth_recurrence g rank (weightFuel g) hr hfb s hs
      by_cases h2 : (depsOf g s).isEmpty = true
      · rw [if_pos h2, hrec, if_pos h2]
      · rw [if_neg h2]
        have hne : depsOf g s ≠ [] := by
          intro h0
          rw [h0] at h2
          exact h2 rfl
        have hall : ∀ d ∈ depsOf g s, seen.contains d = false
            ∧ calcRecursiveNodeWeight g f d (w + 1) (seen ++ [d])
              = .ok (w + 2 + depthOf g (weightFuel g) d) := by
          intro d hd
          have hrd : rank d < rank s := depsOf_rank hr hd
          have hdns : ¬ d ∈ seen := by
            intro hm
            have := hseen d hm
            omega
          have hcf : seen.contains d = false := by
            rw [Bool.eq_false_iff]
            intro hc
            exact hdns ((contains_iff_mem _ _).mp hc)
          refine ⟨hcf, ?_⟩
          have hdu : d ∈ univList g := univ_of_depsOf hd
          have hdec : unseenLen g (seen ++ [d]) < unseenLen g seen := by
            rw [unseenLen, unseenLen]
            exact gen_unseen_decrease (univList g) seen d hdu hdns
          have hseen2 : ∀ u ∈ seen ++ [d], rank d ≤ rank u := by
            intro u hu
            rcases List.mem_append.mp hu with hu | hu
            · have := hseen u hu
              omega
            · have heq : u = d := by simpa using hu
              rw [heq]
          have := ih d (w + 1) (seen ++ [d]) (by omega) hseen2
          rw [this]
        rw [calc_fold_ok g f w seen (fun d => w + 2 + depthOf g (weightFuel g) d)
          (depsOf g s) [] hall]
        show Except.ok (listMax ([] ++ (depsOf g s).map
            (fun d => w + 2 + depthOf g (weightFuel g) d))) = _
        rw [List.nil_append,
          listMax_map_add (w + 2) (fun d => depthOf g (weightFuel g) d) _ hne]
        rw [hrec, if_neg h2]
        have harith2 : w + 2 + listMax ((depsOf g s).map
              (fun d => depthOf g (weightFuel g) d))
            = w + 1 + (1 + listMax ((depsOf g s).map
              (fun d => depthOf g (weightFuel g) d))) := by omega
        rw [harith2]
    · have h1f : hasKey g s = false := Bool.eq_false_iff.mpr h1
      rw [show (!(hasKey g s)) = true by rw [h1f]; rfl]
      simp only [if_true]
      have hd0 : depthOf g (weightFuel g) s = 0 := by
        rw [depthOf, weightFuel]
        rw [getNodeDepth]
        rw [show (!(hasKey g s)) = true by rw [h1f]; rfl]
        simp
      rw [hd0]

theorem calcTree_ok (g : List (String × List String)) (rank : String → Nat)
    (hr : RankCompat g rank)
    (hfb : ∀ u ∈ univList g, rank u + 1 < weightFuel g) :
    calcTreeNodesWeight g (weightFuel g)
      = .ok (g.map (fun p => (p.1, 1 + depthOf g (weightFuel g) p.1))) := by
  have hgen : ∀ (entries : List (String × List String)) (acc : List (String × Nat)),
      (∀ p ∈ entries, calcRecursiveNodeWeight g (weightFuel g) p.1 0 []
        = .ok (1 + depthOf g (weightFuel g) p.1)) →
      (entries.foldlM
          (fun (acc : List (String × Nat)) p => do
            let w ← calcRecursiveNodeWeight g (weightFuel g) p.1 0 []
            pure (acc ++ [(p.1, w)]))
          acc)
        = .ok (acc ++ entries.map (fun p => (p.1, 1 + depthOf g (weightFuel g) p.1))) := by
    intro entries
    induction entries with
    | nil =>
      intro acc _
      rw [List.foldlM_nil]
      simp only [List.map_nil, List.append_nil]
      rfl
    | cons q qs ih =>
      intro acc hall
      rw [List.foldlM_cons]
      show ((calcRecursiveNodeWeight g (weightFuel g) q.1 0 []) >>=
          fun w => pure (acc ++ [(q.1, w)])) >>= _ = _
      rw [hall q (List.mem_cons_self _ _)]
      show (qs.foldlM _ (acc ++ [(q.1, 1 + depthOf g (weightFuel g) q.1)])) = _
      rw [ih _ (fun x hx => hall x (List.mem_cons_of_mem _ hx))]
      simp
  rw [calcTreeNodesWeight]
  rw [hgen g [] ?_]
  · simp
  · intro p _
    exact calc_ok_eq g rank hr hfb (weightFuel g) p.1 0 [] (unseen_initial g)
      (fun u hu => by cases hu)

theorem lookupWeight_map (g : List (String × List String)) (vf : String → Nat) :
    ∀ t ∈ treeKeys g, lookupWeight (g.map (fun p => (p.1, vf p.1))) t = vf t := by
  induction g with
  | nil => intro t ht; cases ht
  | cons q rest ih =>
    intro t ht
    rw [List.map_cons, lookupWeight]
    by_cases hq : q.1 = t
    · rw [if_pos hq, hq]
    · rw [if_neg hq]
      rcases List.mem_cons.mp ht with h | h
      · exact absurd h.symm hq
      · exact ih t h

theorem posOf_getElem_nodup {A : Type} [DecidableEq A] :
    ∀ (l : List A), l.Nodup → ∀ (i : Nat) (h : i < l.length),
      posOf (l.get ⟨i, h⟩) l = i := by
  intro l
  induction l with
  | nil =>
    intro _ i h
    exact absurd h (by simp)
  | cons a l ih =>
    intro hnd i h
    cases i with
    | zero =>
      show posOf a (a :: l) = 0
      rw [posOf, if_pos rfl]
    | succ i =>
      have hi : i < l.length := by
        rw [List.length_cons] at h
        omega
      have hget : (a :: l).get ⟨i + 1, h⟩ = l.get ⟨i, hi⟩ := rfl
      rw [hget, posOf]
      have hmem : l.get ⟨i, hi⟩ ∈ l := by
        rw [List.get_eq_getElem]
        exact List.getElem_mem hi
      have hane : ¬ a = l.get ⟨i, hi⟩ := by
        intro heq
        have hnin : a ∉ l := (List.nodup_cons.mp hnd).1
        rw [heq] at hnin
        exact hnin hmem
      rw [if_neg hane, ih (List.nodup_cons.mp hnd).2 i hi]

theorem bfsVisitOrder_nodup (g : List (String × List String)) :
    (bfsVisitOrder g).Nodup := by
  rw [bfsVisitOrder]
  exact bfsNodeAux_nodup g _ [] [none] List.nodup_nil

theorem bfsVisitOrder_parentsBefore (g : List (String × List String)) :
    ParentsBefore g (bfsVisitOrder g) := by
  rw [bfsVisitOrder]
  refine bfsNodeAux_parentsBefore g _ [] [none] ?_
  intro i h
  exact absurd h (by simp)

theorem bfsOutputTreeNode_eq (g : List (String × List String)) (P : List String) :
    bfsOutputTreeNode g P = (bfsVisitOrder g).filterMap (keepPresent P) := by
  rw [bfsOutputTreeNode, bfsVisitOrder]
  rfl

theorem keepPresent_mem (P : List String) (x : Option String) (b : String)
    (h : keepPresent P x = some b) : x = some b ∧ b ∈ P := by
  cases x with
  | none => simp [keepPresent] at h
  | some t =>
    simp only [keepPresent] at h
    by_cases hc : P.contains t = true
    · rw [if_pos hc] at h
      have hb : t = b := by
        injection h
      subst hb
      exact ⟨rfl, (contains_iff_mem P t).mp hc⟩
    · rw [if_neg hc] at h
      cases h

theorem mem_bfsOutputTreeNode (g : List (String × List String)) (P : List String)
    (s : String) :
    s ∈ bfsOutputTreeNode g P ↔ some s ∈ bfsVisitOrder g ∧ s ∈ P := by
  rw [bfsOutputTreeNode_eq, List.mem_filterMap]
  constructor
  · rintro ⟨x, hx, hf⟩
    rcases keepPresent_mem P x s hf with ⟨hxs, hsP⟩
    rw [hxs] at hx
    exact ⟨hx, hsP⟩
  · rintro ⟨h1, h2⟩
    refine ⟨some s, h1, ?_⟩
    simp only [keepPresent]
    rw [if_pos ((contains_iff_mem P s).mpr h2)]

theorem bfs_output_nodup (g : List (String × List String)) (P : List String) :
    (bfsOutputTreeNode g P).Nodup := by
  rw [bfsOutputTreeNode_eq]
  refine List.Nodup.filterMap ?_ (bfsVisitOrder_nodup g)
  intro x y b hb hb'
  have h1 := (keepPresent_mem P x b (Option.mem_def.mp hb)).1
  have h2 := (keepPresent_mem P y b (Option.mem_def.mp hb')).1
  rw [h1, h2]

theorem bfs_output_pairwise (g : List (String × List String)) (P : List String)
    (rank : String → Nat) (hr : RankCompat g rank)
    (hrb : ∀ u ∈ univList g, rank u + 1 < weightFuel g)
    (hties : ∀ a ∈ P, ∀ b ∈ P, a ≠ b → Reaches g a b ∨ Reaches g b a) :
    (bfsOutputTreeNode g P).Pairwise
      (fun a b => depthOf g (weightFuel g) a < depthOf g (weightFuel g) b) := by
  have hnd := bfsVisitOrder_nodup g
  have hpb := bfsVisitOrder_parentsBefore g
  have hR : (bfsVisitOrder g).Pairwise
      (fun x y => ∀ a b : String, x = some a → y = some b → a ∈ P → b ∈ P →
        depthOf g (weightFuel g) a < depthOf g (weightFuel g) b) := by
    rw [List.pairwise_iff_getElem]
    intro i j hi hj hij a b hxa hxb haP hbP
    have hne : a ≠ b := by
      intro heq
      have hij2 : (bfsVisitOrder g)[i] = (bfsVisitOrder g)[j] := by
        rw [hxa, hxb, heq]
      have := (List.Nodup.getElem_inj_iff hnd).mp hij2
      omega
    rcases hties a haP b hbP hne with hab | hba
    · exfalso
      have hmema : some a ∈ bfsVisitOrder g := by
        rw [← hxa]
        exact List.getElem_mem hi
      have hlt := (reaches_posOf_lt g (bfsVisitOrder g) hpb hab hmema).2
      have hpa : posOf (some a) (bfsVisitOrder g) = i := by
        have hgp := posOf_getElem_nodup (bfsVisitOrder g) hnd i hi
        rw [List.get_eq_getElem, hxa] at hgp
        exact hgp
      have hpbj : posOf (some b) (bfsVisitOrder g) = j := by
        have hgp := posOf_getElem_nodup (bfsVisitOrder g) hnd j hj
        rw [List.get_eq_getElem, hxb] at hgp
        exact hgp
      omega
    · exact depth_reaches_lt g rank (weightFuel g) hr hrb hba
  rw [bfsOutputTreeNode_eq]
  refine List.Pairwise.filterMap (keepPresent P) ?_ hR
  intro x y hRxy b hb b' hb'
  rcases keepPresent_mem P x b (Option.mem_def.mp hb) with ⟨hx1, hx2⟩
  rcases keepPresent_mem P y b' (Option.mem_def.mp hb') with ⟨hy1, hy2⟩
  exact hRxy b b' hx1 hy1 hx2 hy2

theorem sortLe_pairwise_strict {a : Type} (le : a → a → Bool) (S : a → a → Prop)
    (htot : ∀ u v, le u v = true ∨ le v u = true)
    (htrans : ∀ u v w, le u v = true → le v w = true → le u w = true)
    (P : List a) (hPnd : P.Nodup)
    (hS : ∀ u ∈ P, ∀ v ∈ P, u ≠ v → le u v = true → S u v) :
    (sortLe le P).Pairwise S := by
  have hp := sortLe_pairwise le htot htrans P
  have hperm := sortLe_perm le P
  have hnd2 : (sortLe le P).Pairwise (fun u v => u ≠ v) := hperm.nodup_iff.mpr hPnd
  have hcomb := List.Pairwise.and hp hnd2
  refine hcomb.imp_of_mem ?_
  intro u v hu hv huv
  exact hS u (hperm.subset hu) v (hperm.subset hv) huv.2 huv.1

theorem weight_output_pairwise (g : List (String × List String)) (P : List String)
    (rank : String → Nat) (hr : RankCompat g rank)
    (hrb : ∀ u ∈ univList g, rank u + 1 < weightFuel g)
    (hPk : ∀ s ∈ P, s ∈ treeKeys g) (hPnd : P.Nodup)
    (hties : ∀ a ∈ P, ∀ b ∈ P, a ≠ b → Reaches g a b ∨ Reaches g b a) :
    (gulpBemCssOrder g P).Pairwise
      (fun a b => depthOf g (weightFuel g) a < depthOf g (weightFuel g) b) := by
  have hcw := calcTree_ok g rank hr hrb
  rw [gulpBemCssOrder, hcw]
  show (sortLe (fun u v =>
      decide (lookupWeight (g.map (fun p => (p.1, 1 + depthOf g (weightFuel g) p.1))) u
        ≤ lookupWeight (g.map (fun p => (p.1, 1 + depthOf g (weightFuel g) p.1))) v))
    P).Pairwise _
  refine sortLe_pairwise_strict _ _ ?_ ?_ P hPnd ?_
  · intro u v
    rcases Nat.le_total
        (lookupWeight (g.map (fun p => (p.1, 1 + depthOf g (weightFuel g) p.1))) u)
        (lookupWeight (g.map (fun p => (p.1, 1 + depthOf g (weightFuel g) p.1))) v)
      with h | h
    · exact Or.inl (decide_eq_true h)
    · exact Or.inr (decide_eq_true h)
  · intro u v w h1 h2
    exact decide_eq_true (Nat.le_trans (of_decide_eq_true h1) (of_decide_eq_true h2))
  · intro u hu v hv hne hle
    have hwu := lookupWeight_map g (fun s => 1 + depthOf g (weightFuel g) s) u (hPk u hu)
    have hwv := lookupWeight_map g (fun s => 1 + depthOf g (weightFuel g) s) v (hPk v hv)
    have hle2 := of_decide_eq_true hle
    rw [hwu, hwv] at hle2
    have hle3 : 1 + depthOf g (weightFuel g) u ≤ 1 + depthOf g (weightFuel g) v := hle2
    rcases hties u hu v hv hne with huv | hvu
    · have := depth_reaches_lt g rank (weightFuel g) hr hrb huv
      omega
    · exact depth_reaches_lt g rank (weightFuel g) hr hrb hvu

theorem bfs_output_perm (g : List (String × List String)) (P : List String)
    (rank : String → Nat) (hr : RankCompat g rank)
    (hclosed : ∀ p ∈ g, ∀ d ∈ p.2, d ∈ treeKeys g)
    (hPk : ∀ s ∈ P, s ∈ treeKeys g) (hPnd : P.Nodup) :
    (bfsOutputTreeNode g P).Perm P := by
  refine List.perm_of_nodup_nodup_toFinset_eq (bfs_output_nodup g P) hPnd ?_
  ext a
  simp only [List.mem_toFinset]
  rw [mem_bfsOutputTreeNode]
  constructor
  · rintro ⟨_, h⟩
    exact h
  · intro h
    exact ⟨bfsVisitOrder_total g rank hr hclosed a (hPk a h), h⟩

theorem gulpBemCssOrder_perm (g : List (String × List String)) (P : List String)
    (rank : String → Nat) (hr : RankCompat g rank)
    (hrb : ∀ u ∈ univList g, rank u + 1 < weightFuel g) :
    (gulpBemCssOrder g P).Perm P := by
  have hcw := calcTree_ok g rank hr hrb
  rw [gulpBemCssOrder, hcw]
  show (sortLe (fun u v =>
      decide (lookupWeight (g.map (fun p => (p.1, 1 + depthOf g (weightFuel g) p.1))) u
        ≤ lookupWeight (g.map (fun p => (p.1, 1 + depthOf g (weightFuel g) p.1))) v))
    P).Perm P
  exact sortLe_perm _ _

/-- C7 counterexample: the two strategies the claim equates do NOT agree.  On
the acyclic declaration tree `x -> a, c; c -> b` (ranks witness the acyclicity)
with present set `[x, c]` — no ties, since `x` transitively depends on `c` —
the first-generation Map-based `bfsOutputTree` emits `[x, c]`, the dependent
`x` first, while the longest-path weight strategy emits `[c, x]`. -/
theorem c7_bfs_weight_divergence :
    RankCompat [("x", ["a", "c"]), ("c", ["b"]), ("a", []), ("b", [])]
      (fun s => if s = "x" then 2 else if s = "c" then 1 else 0)
    ∧ Reaches [("x", ["a", "c"]), ("c", ["b"]), ("a", []), ("b", [])] "x" "c"
    ∧ bfsOutputTreeMap [("x", ["a", "c"]), ("c", ["b"]), ("a", []), ("b", [])]
        ["x", "c"] = ["x", "c"]
    ∧ gulpBemCssOrder [("x", ["a", "c"]), ("c", ["b"]), ("a", []), ("b", [])]
        ["x", "c"] = ["c", "x"] :=
  ⟨by rw [RankCompat]; decide, Reaches.edge (by decide), by decide, by decide⟩

/-- C7 (amended): on an acyclic declaration tree (witnessed by a rank function
that decreases along dependency edges and bounds below the weight fuel), with
every recorded dependency itself a tree key, and a duplicate-free present set
of tree keys in which no two distinct stems are mutually independent (each pair
is related by transitive dependency), the third-generation `TreeNode` BFS
emission and the longest-path weight emission produce the same sequence. -/
theorem c7_strategies_agree (g : List (String × List String)) (P : List String)
    (rank : String → Nat) (hr : RankCompat g rank)
    (hrb : ∀ u ∈ univList g, rank u + 1 < weightFuel g)
    (hclosed : ∀ p ∈ g, ∀ d ∈ p.2, d ∈ treeKeys g)
    (hPk : ∀ s ∈ P, s ∈ treeKeys g) (hPnd : P.Nodup)
    (hties : ∀ a ∈ P, ∀ b ∈ P, a ≠ b → Reaches g a b ∨ Reaches g b a) :
    bfsOutputTreeNode g P = gulpBemCssOrder g P := by
  haveI : IsAntisymm String
      (fun u v => depthOf g (weightFuel g) u < depthOf g (weightFuel g) v) :=
    ⟨fun u v h1 h2 => absurd h2 (Nat.lt_asymm h1)⟩
  exact List.eq_of_perm_of_sorted
    ((bfs_output_perm g P rank hr hclosed hPk hPnd).trans
      (gulpBemCssOrder_perm g P rank hr hrb).symm)
    (bfs_output_pairwise g P rank hr hrb hties)
    (weight_output_pairwise g P rank hr hrb hPk hPnd hties)

/-- C7 witness: the amended equivalence instantiated on the counterexample's
own graph, where both strategies emit `[c, x]`. -/
theorem c7_strategies_agree_witness :
    bfsOutputTreeNode [("x", ["a", "c"]), ("c", ["b"]), ("a", []), ("b", [])]
        ["x", "c"]
      = gulpBemCssOrder [("x", ["a", "c"]), ("c", ["b"]), ("a", []), ("b", [])]
        ["x", "c"] :=
  c7_strategies_agree _ _ (fun s => if s = "x" then 2 else if s = "c" then 1 else 0)
    (by rw [RankCompat]; decide) (by decide) (by decide) (by decide) (by decide)
    (by
      intro a ha b hb hne
      fin_cases ha <;> fin_cases hb
      · exact absurd rfl hne
      · exact Or.inl (Reaches.edge (by decide))
      · exact Or.inr (Reaches.edge (by decide))
      · exact absurd rfl hne)

end GulpOrderBemDeps
